import Mathlib

/-!
Verification development for the NeuMemo tab-session pipeline.

The JavaScript sources are shallowly embedded:
* string-processing helpers and the prompt budgeter of src/firebase_ai.js,
* the newer firebase_ai snapshot (rate limiter, retry helper, classification
  client with historical passthrough),
* the merge / deduplication, exclusion filtering, title resolution and
  IndexedDB reconciliation of src/background.js.

External capabilities (the tokenizer, the generative model, URL hostname
parsing by the browser) are parameters of the model; everything written in
the repository itself is translated directly.
-/

set_option maxRecDepth 40000

/-- JS `x || d` for an optional string field: a missing field and the empty
string are both falsy and fall back to the default. -/
def jsOr (o : Option String) (d : String) : String :=
  match o with
  | some s => if s = "" then d else s
  | none => d

/-- JS `s || d` for a string value: the empty string is falsy. -/
def jsOrStr (s d : String) : String :=
  if s = "" then d else s

/-- First-match lookup in an assoc list, modelling a JS object keyed by
strings (keys are unique in every object the code builds). -/
def lookupStr {α : Type} (m : List (String × α)) (k : String) : Option α :=
  (m.find? (fun p => p.1 == k)).map (fun p => p.2)

/-- Membership test for a JS object key (`hasOwnProperty`). -/
def hasKey {α : Type} (m : List (String × α)) (k : String) : Bool :=
  (lookupStr m k).isSome

/-- Replace-or-append update of an assoc list, modelling assignment to a JS
object field or `Map.prototype.set` (insertion order preserved). -/
def mapSet {α : Type} (m : List (String × α)) (k : String) (v : α) : List (String × α) :=
  if m.any (fun p => p.1 == k) then
    m.map (fun p => if p.1 == k then (k, v) else p)
  else
    m ++ [(k, v)]

/-! Faithful translation of `normalizeContent` (identical in both
firebase_ai snapshots).  The JS regexes are rendered as character-list
passes: trim, collapse runs of three or more newline units to a paragraph
break, collapse runs of spaces/tabs, strip line-leading spaces/tabs. -/
/-- Whitespace stripped by `String.prototype.trim` (ASCII fragment). -/
def jsWs (c : Char) : Bool :=
  c = ' ' || c = '\t' || c = '\n' || c = '\r'

/-- Newline characters, the alphabet of the `(\r\n|\r|\n)` alternation. -/
def nlChar (c : Char) : Bool :=
  c = '\r' || c = '\n'

/-- Space or tab, the alphabet of `[ \t]`. -/
def spTab (c : Char) : Bool :=
  c = ' ' || c = '\t'

/-- Number of `(\r\n|\r|\n)` units matched greedily in a run of newline
characters (a CRLF pair counts once). -/
def nlUnitCount : List Char → Nat
  | '\r' :: '\n' :: rest => nlUnitCount rest + 1
  | _ :: rest => nlUnitCount rest + 1
  | [] => 0

/-- Replace every maximal run of newline characters containing at least
three `(\r\n|\r|\n)` units by a double newline, as the regex
`/(\r\n|\r|\n){3,}/g` with replacement `"\n\n"` does. -/
def collapseNewlines : List Char → List Char
  | [] => []
  | c :: rest =>
    if h : nlChar c then
      let run := (c :: rest).takeWhile nlChar
      let rest' := (c :: rest).dropWhile nlChar
      (if nlUnitCount run ≥ 3 then ['\n', '\n'] else run) ++ collapseNewlines rest'
    else
      c :: collapseNewlines rest
termination_by l => l.length
decreasing_by
  · simp only [List.dropWhile_cons, h, if_pos]
    have hle : (rest.dropWhile nlChar).length ≤ rest.length := by
      induction rest with
      | nil => simp [List.dropWhile]
      | cons a l ih =>
        by_cases h2 : nlChar a
        · simp [List.dropWhile, h2]
          exact Nat.le_succ_of_le ih
        · simp [List.dropWhile, h2]
    exact Nat.lt_succ_of_le hle
  · simp

/-- Replace every run of two or more spaces/tabs by a single space, as
`/[ \t]{2,}/g` with replacement `" "` does. -/
def collapseSpaces : List Char → List Char
  | [] => []
  | c :: rest =>
    if h : spTab c then
      let run := (c :: rest).takeWhile spTab
      let rest' := (c :: rest).dropWhile spTab
      (if run.length ≥ 2 then [' '] else run) ++ collapseSpaces rest'
    else
      c :: collapseSpaces rest
termination_by l => l.length
decreasing_by
  · simp only [List.dropWhile_cons, h, if_pos]
    have hle : (rest.dropWhile spTab).length ≤ rest.length := by
      induction rest with
      | nil => simp [List.dropWhile]
      | cons a l ih =>
        by_cases h2 : spTab a
        · simp [List.dropWhile, h2]
          exact Nat.le_succ_of_le ih
        · simp [List.dropWhile, h2]
    exact Nat.lt_succ_of_le hle
  · simp

/-- Drop spaces/tabs at the start of each line, as `/^[ \t]+/gm` with empty
replacement does (in multiline mode `^` matches at the string start and
after every newline character). -/
def stripLineLeading : Bool → List Char → List Char
  | _, [] => []
  | atStart, c :: rest =>
    if atStart && spTab c then
      stripLineLeading true rest
    else
      c :: stripLineLeading (nlChar c) rest

/-- JS `String.prototype.trim` on the character list. -/
def jsTrimChars (l : List Char) : List Char :=
  ((l.dropWhile jsWs).reverse.dropWhile jsWs).reverse

/-- JS `String.prototype.trim` as a string function. -/
def jsTrim (s : String) : String :=
  String.mk (jsTrimChars s.data)

/-- JS `String.prototype.toLowerCase` (ASCII fragment). -/
def lowerStr (s : String) : String :=
  String.mk (s.data.map Char.toLower)

/-- Embedding of `normalizeContent` from firebase_ai.js: the guard
`if (!content) return ''` followed by the three regex passes over the
trimmed text. -/
def normalizeContent (content : String) : String :=
  if content = "" then ""
  else
    String.mk (stripLineLeading true
      (collapseSpaces (collapseNewlines (jsTrimChars content.data))))

/-! The tokenizer.  The code calls tiktoken's cl100k_base encoder, an
external library; it is modelled as an opaque pair of total functions.
Token counts are list lengths of encodings, exactly as the code computes
`encoding.encode(s).length`. -/
/-- Opaque model of a tiktoken encoding object: `encode` splits a string
into a token list, `decode` maps a token list back to text. -/
structure Encoding where
  encode : String → List Nat
  decode : List Nat → String

/-- Token count of a string, `encoding.encode(s).length` in the code. -/
def countTok (e : Encoding) (s : String) : Nat :=
  (e.encode s).length

/-- One document offered to the pipeline.  Fields mirror the tab objects the
code passes around; `sessionId`/`sessionName` are present only on records
that carried them (absent JS fields are `none`). -/
structure Tab where
  title : String
  url : String
  content : String
  source : String
  sessionId : Option Int := none
  sessionName : Option String := none
deriving Repr, DecidableEq

/-- One classification result row.  `tab_id` is `none` when the field is
missing or not a string; `session_id` is `none` when omitted or null. -/
structure AIResult where
  tab_id : Option String
  session_name : Option String
  summarized_content : String
  session_id : Option Int := none
deriving Repr, DecidableEq

namespace FirebaseAi

/-- The system prompt of src/firebase_ai.js (`promptTemplate`). -/
def promptTemplate : String :=
  "You are an AI tab session manager.\nYour goal is to group tabs into meaningful, thematic sessions.\nAnalyze the following tabs and group them into logical sessions.\nThe session names should be descriptive and specific, but not so granular that every tab gets its own session. For example, group tabs about \x27React Hooks\x27 and \x27State Management\x27 into a session called \x27React Development\x27, not just \x27Development\x27.\nAssign each tab a \x60session_name\x60 and a factual \x60summarized_content\x60.\nTabs with the same topic MUST share the same \x60session_name\x60.\nThe final output must be only a valid JSON array of objects.\n\nInput tabs:\n"

/-- Mutable locals of the prompt-assembly loop in `summarizeTabs`
(src/firebase_ai.js): the accumulated prompt body, the running token total
and the number of appended documents.  `truncations` counts how many
appended documents had their content truncated (the code logs a warning at
exactly these points); it does not influence control flow. -/
structure BudgetSt where
  tabsInput : String
  totalTokens : Nat
  tabsInPrompt : Nat
  truncations : Nat
deriving Repr

/-- Initial assembly state: empty body, base-prompt token cost, no tabs. -/
def initSt (e : Encoding) : BudgetSt :=
  { tabsInput := "", totalTokens := countTok e promptTemplate,
    tabsInPrompt := 0, truncations := 0 }

/-- Embedding of the local `appendSectionHeader` closure. -/
def appendSectionHeader (e : Encoding) (maxTokens : Nat) (st : BudgetSt)
    (text : String) : BudgetSt × Bool :=
  if st.totalTokens + countTok e ("\n" ++ text ++ "\n") ≤ maxTokens then
    ({ st with tabsInput := st.tabsInput ++ ("\n" ++ text ++ "\n"),
               totalTokens := st.totalTokens + countTok e ("\n" ++ text ++ "\n") }, true)
  else
    (st, false)

/-- The non-truncatable wrapper header of one document block. -/
def tabHeader (t : Tab) : String :=
  "\n<NEMO_tab>\nTitle: " ++ t.title ++ "\nURL: " ++ t.url ++ "\nContent:\n<CONTENT_START>\n"

/-- The non-truncatable wrapper footer of one document block. -/
def tabFooter : String :=
  "\n<CONTENT_END>"

/-- The assembled block for one document given the current token total:
normalized content, truncated by token count to the available budget when
too long, wrapped in header and footer.  The Bool records whether
truncation happened. -/
def finalBlock (e : Encoding) (maxTokens total : Nat) (t : Tab) : String × Bool :=
  let wrapperTokens := countTok e (tabHeader t) + countTok e tabFooter
  let availableTokens := maxTokens - total - wrapperTokens
  let normalizedContent := normalizeContent t.content
  let contentTokens := e.encode normalizedContent
  if contentTokens.length > availableTokens then
    (tabHeader t ++ e.decode (contentTokens.take availableTokens) ++ tabFooter, true)
  else
    (tabHeader t ++ normalizedContent ++ tabFooter, false)

/-- Embedding of the local `appendTab` closure: reject if even the wrapper
does not fit, otherwise build the (possibly truncated) block, re-measure
it, and reject if the re-measured total would exceed the budget. -/
def appendTab (e : Encoding) (maxTokens : Nat) (st : BudgetSt) (t : Tab) :
    BudgetSt × Bool :=
  if st.totalTokens + (countTok e (tabHeader t) + countTok e tabFooter) > maxTokens then
    (st, false)
  else if st.totalTokens + countTok e (finalBlock e maxTokens st.totalTokens t).1 > maxTokens then
    (st, false)
  else
    ({ tabsInput := st.tabsInput ++ (finalBlock e maxTokens st.totalTokens t).1,
       totalTokens := st.totalTokens + countTok e (finalBlock e maxTokens st.totalTokens t).1,
       tabsInPrompt := st.tabsInPrompt + 1,
       truncations := st.truncations +
         (if (finalBlock e maxTokens st.totalTokens t).2 then 1 else 0) }, true)

/-- The `for ... if (!appendTab(t)) break` loop over one section. -/
def appendLoop (e : Encoding) (maxTokens : Nat) : BudgetSt → List Tab → BudgetSt
  | st, [] => st
  | st, t :: rest =>
    match appendTab e maxTokens st t with
    | (st', true) => appendLoop e maxTokens st' rest
    | (st', false) => st'

/-- Prompt assembly of `summarizeTabs` (src/firebase_ai.js): partition into
historical and current documents, then append each section (header first,
then documents until the budget is exhausted). -/
def assemble (e : Encoding) (maxTokens : Nat) (tabs : List Tab) : BudgetSt :=
  let historyTabs := tabs.filter (fun t => t.source == "history")
  let currentTabs := tabs.filter (fun t => t.source != "history")
  let st0 := initSt e
  let st1 :=
    if historyTabs.length > 0 then
      match appendSectionHeader e maxTokens st0
          "Existing saved tabs from IndexedDB (previous sessions):" with
      | (st, true) => appendLoop e maxTokens st historyTabs
      | (st, false) => st
    else st0
  if currentTabs.length > 0 then
    match appendSectionHeader e maxTokens st1 "Newly collected open tabs:" with
    | (st, true) => appendLoop e maxTokens st currentTabs
    | (st, false) => st
  else st1

/-- Budget invariant carried by the assembly loop: either the running total
is within the budget, or the state is still the untouched initial state. -/
def Good (e : Encoding) (m : Nat) (st : BudgetSt) : Prop :=
  st.totalTokens ≤ m ∨ st = initSt e

end FirebaseAi


/-- Degenerate tokenizer instance (every string encodes to no tokens); used
to instantiate theorems about the budgeter on concrete runs where the
budget never binds. -/
def zeroEnc : Encoding :=
  { encode := fun _ => [], decode := fun _ => "" }

/-- Character-level tokenizer instance (one token per character); a
concrete member of the tokenizer interface on which the assembly can be
evaluated exactly. -/
def charEnc : Encoding :=
  { encode := fun s => s.data.map Char.toNat,
    decode := fun l => String.mk (l.map (fun n => Char.ofNat n)) }

namespace FirebaseAi

/-- Sample current-source document used in concrete runs. -/
def wTab : Tab :=
  { title := "T", url := "http://a", content := "", source := "current" }

/-- Historical document with a very long title: its non-truncatable wrapper
is expensive, so a budget that admits it leaves no room for anything else. -/
def cexHist : Tab :=
  { title := String.mk (List.replicate 200 'a'), url := "http://h", content := "",
    source := "history" }

/-- Small fresh document. -/
def cexCur1 : Tab :=
  { title := "t", url := "http://a", content := "", source := "current" }

/-- Second small fresh document. -/
def cexCur2 : Tab :=
  { title := "u", url := "http://b", content := "", source := "current" }

/-- Input list for the monotonicity counterexample. -/
def cexTabs : List Tab := [cexHist, cexCur1, cexCur2]

/-- Smaller budget: fits the two section headers and both fresh documents,
but not the historical document's wrapper. -/
def cexB1 : Nat :=
  countTok charEnc promptTemplate
    + countTok charEnc "\nExisting saved tabs from IndexedDB (previous sessions):\n"
    + countTok charEnc "\nNewly collected open tabs:\n"
    + countTok charEnc (tabHeader cexCur1 ++ tabFooter)
    + countTok charEnc (tabHeader cexCur2 ++ tabFooter)

/-- Larger budget: exactly fits the historical section header plus the
historical document, after which the current-section header no longer
fits. -/
def cexB2 : Nat :=
  countTok charEnc promptTemplate
    + countTok charEnc "\nExisting saved tabs from IndexedDB (previous sessions):\n"
    + countTok charEnc (tabHeader cexHist ++ tabFooter)

end FirebaseAi

namespace FirebaseAi5

/-- The system prompt of the newer firebase_ai snapshot (`promptTemplate`). -/
def promptTemplate : String :=
  "You are an AI session classifier.\nTask: Only classify NEW tabs into sessions and summarize ONLY the new tabs.\n\nExisting sessions (from history) are immutable: do not rename, merge, or recreate them. If a new tab clearly belongs to one of the existing sessions, assign it to that session and use the exact session_name and session_id provided. If no existing session fits, propose a new session by providing a specific, descriptive session_name and OMIT the session_id field.\n\nOutput JSON ONLY as an array of objects with this exact shape:\n\x7b tab_id: string, session_name: string, summarized_content: string, session_id?: number \x7d\n\nRules:\n- Do not include historical tabs in the output (they are already stored). Output objects ONLY for the new tabs provided below.\n- Set tab_id EXACTLY to the tab\x27s URL from the input.\n- For assignment to existing sessions, copy session_name exactly as shown and set session_id to that numeric id.\n- For a new session, choose a new session_name (not generic), and omit session_id entirely (do not include null or 0).\n- summarized_content: a factual summary that captures the main ideas and sections/topics covered, key entities/terms, and important facts. Make it searchable later by including concrete terms and section-level themes. Limit to a maximum of 500 words. Plain text only; no markdown.\n"

/-- One bucket of the `sessionsById` map: an existing session id, its name,
and the sample URLs collected from history tabs. -/
structure SessInfo where
  id : Int
  name : String
  urls : List String
deriving Repr, DecidableEq

/-- One step of building `sessionsById` from a history tab: tabs without a
numeric `sessionId` are ignored; the first occurrence of an id fixes the
bucket name; every truthy URL is pushed onto the bucket. -/
def addHistTab (acc : List SessInfo) (t : Tab) : List SessInfo :=
  match t.sessionId with
  | none => acc
  | some sid =>
    if acc.any (fun s => s.id == sid) then
      acc.map (fun s =>
        if s.id == sid then
          { s with urls := s.urls ++ (if t.url != "" then [t.url] else []) }
        else s)
    else
      acc ++ [{ id := sid, name := jsOr t.sessionName "Uncategorized",
                urls := if t.url != "" then [t.url] else [] }]

/-- The existing-sessions catalog built from the history tabs, in first-seen
insertion order (JS Map iteration order). -/
def buildSessionsById (historyTabs : List Tab) : List SessInfo :=
  historyTabs.foldl addHistTab []

/-- The catalog block emitted for one existing session. -/
def sessionBlock (s : SessInfo) : String :=
  "\n<SESSION>\nID: " ++ toString s.id ++ "\nName: " ++ s.name
    ++ "\nKnown URLs (sample):\n- " ++ String.intercalate "\n- " (s.urls.take 5)

/-- Append one session catalog block if it fits in the remaining budget. -/
def appendSession (e : Encoding) (maxTokens : Nat) (st : FirebaseAi.BudgetSt)
    (s : SessInfo) : FirebaseAi.BudgetSt × Bool :=
  if st.totalTokens + countTok e (sessionBlock s) ≤ maxTokens then
    ({ st with tabsInput := st.tabsInput ++ sessionBlock s,
               totalTokens := st.totalTokens + countTok e (sessionBlock s) }, true)
  else
    (st, false)

/-- The `for ... else break` loop over session catalog blocks. -/
def appendSessionsLoop (e : Encoding) (maxTokens : Nat) :
    FirebaseAi.BudgetSt → List SessInfo → FirebaseAi.BudgetSt
  | st, [] => st
  | st, s :: rest =>
    match appendSession e maxTokens st s with
    | (st', true) => appendSessionsLoop e maxTokens st' rest
    | (st', false) => st'

/-- The per-document wrapper header of this snapshot (with the ID line). -/
def tabHeader (t : Tab) : String :=
  "\n<NEMO_tab>\nID: " ++ t.url ++ "\nTitle: " ++ t.title ++ "\nURL: " ++ t.url
    ++ "\nContent:\n<CONTENT_START>\n"

/-- The per-document wrapper footer. -/
def tabFooter : String :=
  "\n<CONTENT_END>"

/-- The assembled (possibly truncated) block for one document, as in the
older snapshot but with this snapshot's header. -/
def finalBlock (e : Encoding) (maxTokens total : Nat) (t : Tab) : String × Bool :=
  let wrapperTokens := countTok e (tabHeader t) + countTok e tabFooter
  let availableTokens := maxTokens - total - wrapperTokens
  let normalizedContent := normalizeContent t.content
  let contentTokens := e.encode normalizedContent
  if contentTokens.length > availableTokens then
    (tabHeader t ++ e.decode (contentTokens.take availableTokens) ++ tabFooter, true)
  else
    (tabHeader t ++ normalizedContent ++ tabFooter, false)

/-- Embedding of this snapshot's `appendTab` closure. -/
def appendTab (e : Encoding) (maxTokens : Nat) (st : FirebaseAi.BudgetSt) (t : Tab) :
    FirebaseAi.BudgetSt × Bool :=
  if st.totalTokens + (countTok e (tabHeader t) + countTok e tabFooter) > maxTokens then
    (st, false)
  else if st.totalTokens + countTok e (finalBlock e maxTokens st.totalTokens t).1 > maxTokens then
    (st, false)
  else
    ({ tabsInput := st.tabsInput ++ (finalBlock e maxTokens st.totalTokens t).1,
       totalTokens := st.totalTokens + countTok e (finalBlock e maxTokens st.totalTokens t).1,
       tabsInPrompt := st.tabsInPrompt + 1,
       truncations := st.truncations +
         (if (finalBlock e maxTokens st.totalTokens t).2 then 1 else 0) }, true)

/-- The `for ... if (!appendTab(t)) break` loop over the new documents. -/
def appendLoop (e : Encoding) (maxTokens : Nat) :
    FirebaseAi.BudgetSt → List Tab → FirebaseAi.BudgetSt
  | st, [] => st
  | st, t :: rest =>
    match appendTab e maxTokens st t with
    | (st', true) => appendLoop e maxTokens st' rest
    | (st', false) => st'

/-- Initial assembly state of this snapshot. -/
def initSt (e : Encoding) : FirebaseAi.BudgetSt :=
  { tabsInput := "", totalTokens := countTok e promptTemplate,
    tabsInPrompt := 0, truncations := 0 }

/-- Prompt assembly of this snapshot's `summarizeTabs`: the session catalog
built from history (session blocks do not count as prompt documents),
followed by the new documents.  Only new documents increment
`tabsInPrompt`. -/
def assemble (e : Encoding) (maxTokens : Nat) (tabs : List Tab) : FirebaseAi.BudgetSt :=
  let historyTabs := tabs.filter (fun t => t.source == "history")
  let currentTabs := tabs.filter (fun t => t.source != "history")
  let sessionsById := buildSessionsById historyTabs
  let st0 := initSt e
  let st1 :=
    if sessionsById.length > 0 then
      match FirebaseAi.appendSectionHeader e maxTokens st0 "Existing sessions (immutable):" with
      | (st, true) => appendSessionsLoop e maxTokens st sessionsById
      | (st, false) => st
    else st0
  if currentTabs.length > 0 then
    match FirebaseAi.appendSectionHeader e maxTokens st1
        "Newly collected open tabs (to classify and summarize):" with
    | (st, true) => appendLoop e maxTokens st currentTabs
    | (st, false) => st
  else st1

/-- Parse status of one model response text (`JSON.parse` plus the
`Array.isArray` check): a JSON array of result rows, JSON that is not an
array, or text that fails to parse at all. -/
inductive ModelResponse where
  | jsonArray (items : List AIResult)
  | jsonNonArray
  | invalidJson
deriving Repr, DecidableEq

/-- Outcome of one `model.generateContent` transport attempt: a response
text, or a thrown error that is or is not abort-like (matched by the
`/aborted|AbortError|The user aborted a request/i` test). -/
inductive CallOutcome where
  | success (resp : ModelResponse)
  | failure (abortLike : Bool)
deriving Repr, DecidableEq

/-- Observable outcome of `callWithRetry`: the response of the first
successful attempt (`none` when the helper rethrows), the number of
transport attempts made, and the backoff sleeps performed. -/
structure RetryResult where
  result : Option ModelResponse
  calls : Nat
  backoffs : List Nat
deriving Repr, DecidableEq

/-- Embedding of the `callWithRetry` loop.  `remaining` counts the retries
still allowed (`attempts - i` in the code): a failed attempt is retried
with backoff `1200 * (i + 1)` only when it is abort-like and a retry
remains; otherwise the error is rethrown. -/
def callWithRetryGo (oracle : Nat → CallOutcome) :
    Nat → Nat → List Nat → RetryResult
  | remaining, i, acc =>
    match oracle i with
    | .success resp => { result := some resp, calls := i + 1, backoffs := acc }
    | .failure abortLike =>
      match remaining with
      | 0 => { result := none, calls := i + 1, backoffs := acc }
      | remaining' + 1 =>
        if abortLike then
          callWithRetryGo oracle remaining' (i + 1) (acc ++ [1200 * (i + 1)])
        else
          { result := none, calls := i + 1, backoffs := acc }

/-- Retry helper entry point (`callWithRetry(request, attempts)`). -/
def callWithRetry (oracle : Nat → CallOutcome) (attempts : Nat) : RetryResult :=
  callWithRetryGo oracle attempts 0 []

/-- The passthrough row built from one history tab (used both for the
zero-document fallback and to prepend history to parsed results). -/
def passthroughEntry (h : Tab) : AIResult :=
  { tab_id := some h.url,
    session_name := some (jsOr h.sessionName "Uncategorized"),
    summarized_content := jsOrStr h.content "",
    session_id := h.sessionId }

/-- The historical passthrough list (`historyTabs.map(h => ...)`). -/
def historyPassthrough (tabs : List Tab) : List AIResult :=
  (tabs.filter (fun t => t.source == "history")).map passthroughEntry

/-- Observable outcome of one `summarizeTabs` call of this snapshot: the
returned rows and the number of transport attempts made. -/
structure SummarizeResult where
  results : List AIResult
  calls : Nat
deriving Repr, DecidableEq

/-- Embedding of this snapshot's `summarizeTabs` past prompt assembly: when
no new document fits, return the historical passthrough without calling
the model; otherwise call with retry, and on transport failure or parse
failure return the historical passthrough, on success prepend it to the
parsed rows. -/
def summarizeTabs (e : Encoding) (oracle : Nat → CallOutcome) (tabs : List Tab)
    (maxTokens : Nat) : SummarizeResult :=
  if (assemble e maxTokens tabs).tabsInPrompt = 0 then
    { results := historyPassthrough tabs, calls := 0 }
  else
    match (callWithRetry oracle 2).result with
    | none =>
      { results := historyPassthrough tabs, calls := (callWithRetry oracle 2).calls }
    | some (.jsonArray parsed) =>
      { results := historyPassthrough tabs ++ parsed,
        calls := (callWithRetry oracle 2).calls }
    | some _ =>
      { results := historyPassthrough tabs, calls := (callWithRetry oracle 2).calls }

end FirebaseAi5

namespace Background

/-- String suffix test over the character lists (the meaning of JS
`String.prototype.endsWith`). -/
def strSuffix (s p : String) : Bool :=
  s.data.drop (s.data.length - p.data.length) == p.data

/-- Exclusion test (`isUrlExcluded`): the browser's URL-hostname extraction
is an external capability, passed in as `host` (it returns the lowercased
hostname, or the empty string when the URL cannot be parsed).  A URL is
excluded when its hostname equals a rule or is a subdomain of one. -/
def isUrlExcluded (host : String → String) (rules : List String) (url : String) : Bool :=
  if host url = "" then false
  else rules.any (fun rule => host url == rule || strSuffix (host url) ("." ++ rule))

/-- The `^https?:\/\/` test on a URL, as a character-prefix comparison. -/
def isHttpUrl (s : String) : Bool :=
  s.data.take 7 == "http://".data || s.data.take 8 == "https://".data

/-- The content script's answer to `GET_CONTENT`: the page's live title,
URL (`response.url`, `location.href` at answer time — not necessarily the
URL the tab had when it was queried) and body text. -/
structure FetchResp where
  title : String
  url : String
  content : String
deriving Repr, DecidableEq

/-- One raw browser tab as returned by `chrome.tabs.query`, together with
the outcome of `injectAndGetContent` on it: `none` when any of the
readiness / injection / content-fetch steps failed or threw, `some r`
when the content script answered with `r`. -/
structure RawTab where
  hasId : Bool
  url : String
  pendingUrl : String
  fetch : Option FetchResp
deriving Repr, DecidableEq

/-- JS `tab.url || tab.pendingUrl || ''`. -/
def effectiveUrl (t : RawTab) : String :=
  jsOrStr t.url (jsOrStr t.pendingUrl "")

/-- The injectable-tab filter of `collectAndSummarizeAllTabs`: a tab id, an
http(s) URL, and not excluded. -/
def injectableTabs (excl : String → Bool) (allTabs : List RawTab) : List RawTab :=
  allTabs.filter (fun t =>
    t.hasId && effectiveUrl t != "" && isHttpUrl (effectiveUrl t) && !excl (effectiveUrl t))

/-- Collected documents: the successful fetches whose response carried a
truthy URL (`if (response && response.url)` — otherwise the tab yields
`null` and is filtered out), tagged `source: 'current'`.  The recorded
identity is the content script's live `response.url`, not the query-time
tab URL on which the exclusion filter ran. -/
def validTabs (excl : String → Bool) (allTabs : List RawTab) : List Tab :=
  (injectableTabs excl allTabs).filterMap (fun t =>
    match t.fetch with
    | some r =>
      if r.url == "" then none
      else some { title := r.title, url := r.url, content := r.content, source := "current" }
    | none => none)

/-- History records surviving the exclusion filter
(`historicalTabs.filter(t => !isUrlExcluded(t.url))`). -/
def filteredHistory (excl : String → Bool) (historicalTabs : List Tab) : List Tab :=
  historicalTabs.filter (fun t => !excl t.url)

/-- The URL set of the historical records (`new Set(...map(t => t.url).filter(Boolean))`). -/
def historyUrlSet (historicalTabs : List Tab) : List String :=
  (historicalTabs.map (fun t => t.url)).filter (fun u => u != "")

/-- The `summaryByUrl` object built from the lite batch results: rows
without a truthy url are dropped, later rows overwrite earlier ones. -/
def summaryByUrl (batchResults : List (String × String)) : List (String × String) :=
  batchResults.foldl (fun m it => if it.1 == "" then m else mapSet m it.1 it.2) []

/-- The substitution step producing `summarizedCurrentTabs`: tabs already in
history are left alone, otherwise a non-empty lite summary replaces the
raw content. -/
def summarizedCurrentTabs (hist : List Tab) (current : List Tab)
    (batchResults : List (String × String)) : List Tab :=
  current.map (fun t =>
    if t.url == "" then t
    else if (historyUrlSet hist).contains t.url then t
    else
      match lookupStr (summaryByUrl batchResults) t.url with
      | some s => if s != "" then { t with content := s } else t
      | none => t)

/-- State of the merge loop: the `byUrl` map and the
`skippedCurrentBecauseHistory` counter. -/
structure MergeSt where
  byUrl : List (String × Tab)
  skipped : Nat
deriving Repr, DecidableEq

/-- First merge pass: seed `byUrl` from the historical records. -/
def mergeHist (hist : List Tab) : List (String × Tab) :=
  hist.foldl (fun m t => if t.url == "" then m else mapSet m t.url t) []

/-- Second merge pass: walk the current tabs, skipping (and counting) those
whose URL is already present, inserting the rest. -/
def mergeCurrent (st : MergeSt) (current : List Tab) : MergeSt :=
  current.foldl (fun st t =>
    if t.url == "" then st
    else if st.byUrl.any (fun p => p.1 == t.url) then
      { st with skipped := st.skipped + 1 }
    else
      { st with byUrl := mapSet st.byUrl t.url t }) st

/-- The merged working set and skip counter of step 4 of
`collectAndSummarizeAllTabs`. -/
def mergeByUrl (hist : List Tab) (current : List Tab) : MergeSt :=
  mergeCurrent { byUrl := mergeHist hist, skipped := 0 } current

/-- The combined working set sent to the classifier
(`Array.from(byUrl.values())`). -/
def combinedTabs (hist : List Tab) (current : List Tab) : List Tab :=
  (mergeByUrl hist current).byUrl.map (fun p => p.2)

/-- The `isGoodTitle` helper: non-empty and not the Untitled placeholder
after trimming. -/
def isGoodTitle (s : String) : Bool :=
  jsTrim s != "" && lowerStr (jsTrim s) != "untitled"

/-- Seeding of `bestTitleByUrl` from the historical records. -/
def seedHistTitles (hist : List Tab) : List (String × String) :=
  hist.foldl (fun m t =>
    if t.url == "" then m
    else if isGoodTitle t.title then mapSet m t.url (jsTrim t.title)
    else if hasKey m t.url then m
    else mapSet m t.url (jsTrim (jsOrStr t.title "Untitled"))) []

/-- Overlay of the freshly collected titles, preferring good titles. -/
def overlayCurrentTitles (m : List (String × String)) (current : List Tab) :
    List (String × String) :=
  current.foldl (fun m t =>
    if t.url == "" then m
    else if isGoodTitle (jsTrim t.title) then mapSet m t.url (jsTrim t.title)
    else
      match lookupStr m t.url with
      | some have0 =>
        if have0 == "" then mapSet m t.url (jsOrStr (jsTrim t.title) "Untitled") else m
      | none => mapSet m t.url (jsOrStr (jsTrim t.title) "Untitled")) m

/-- Backfill pass guaranteeing every combined URL has a title. -/
def ensureCombinedTitles (m : List (String × String)) (combined : List Tab) :
    List (String × String) :=
  combined.foldl (fun m t =>
    if t.url == "" then m
    else if hasKey m t.url then m
    else mapSet m t.url (jsOrStr (jsTrim (jsOrStr t.title "Untitled")) "Untitled")) m

/-- The best-effort title lookup passed to `saveAISummaries` (the `titles`
object). -/
def bestTitleByUrl (hist : List Tab) (current : List Tab) (combined : List Tab) :
    List (String × String) :=
  ensureCombinedTitles (overlayCurrentTitles (seedHistTitles hist) current) combined

/-- One row of the `tabs` object store (keyPath `url`).  The ISO timestamp
written by the code carries no information used anywhere and is omitted. -/
structure Membership where
  url : String
  sessionId : Nat
  title : String
  summary : String
deriving Repr, DecidableEq

/-- The `sessions` object store: rows `(id, name)` with an auto-increment
key generator (`nextId`) and a unique index on `name`. -/
structure SessionsStore where
  nextId : Nat
  rows : List (Nat × String)
deriving Repr, DecidableEq

/-- The durable catalog: sessions and memberships. -/
structure DBState where
  sessions : SessionsStore
  tabs : List Membership
deriving Repr, DecidableEq

/-- Basic health of a sessions store as IndexedDB maintains it: the key
generator is positive and strictly above every existing key. -/
def SessPos (s : SessionsStore) : Prop :=
  1 ≤ s.nextId ∧ ∀ p ∈ s.rows, 1 ≤ p.1 ∧ p.1 < s.nextId

/-- Step 1 of `saveAISummaries`: the reconciliation set `urlsFromAI` — the
`tab_id`s that are non-empty strings with an entry in the offered title
lookup. -/
def urlsFromAI (aiResults : List AIResult) (tabTitles : List (String × String)) :
    List String :=
  aiResults.filterMap (fun r =>
    match r.tab_id with
    | some u => if u != "" && hasKey tabTitles u then some u else none
    | none => none)

/-- Step 2 of `saveAISummaries`: delete every stored row whose (truthy) URL
is not in the reconciliation set. -/
def reconcileDelete (urls : List String) (tabs : List Membership) : List Membership :=
  tabs.filter (fun m => m.url == "" || urls.contains m.url)

/-- Step 3 of `saveAISummaries`: the in-memory `sessions` cache, name to id,
loaded from the store. -/
def loadSessionsCache (s : SessionsStore) : List (String × Nat) :=
  s.rows.map (fun p => (p.2, p.1))

/-- The `getOrCreateSessionId` helper.  A cached or stored id of 0 is falsy
in JS and is treated as a miss; an add that hits the unique-name index
raises ConstraintError, is re-read, and a still-falsy id makes the helper
throw (`.error`).  On a true miss the auto-increment generator supplies
the new id. -/
def getOrCreateSessionId (db : SessionsStore) (cache : List (String × Nat))
    (name : String) : Except Unit (Nat × SessionsStore × List (String × Nat)) :=
  match lookupStr cache name with
  | some id =>
    if id ≠ 0 then .ok (id, db, cache)
    else getOrCreateUncached db cache name
  | none => getOrCreateUncached db cache name
where
  getOrCreateUncached (db : SessionsStore) (cache : List (String × Nat))
      (name : String) : Except Unit (Nat × SessionsStore × List (String × Nat)) :=
    match db.rows.find? (fun p => p.2 == name) with
    | some p =>
      if p.1 ≠ 0 then .ok (p.1, db, mapSet cache name p.1)
      else addSession db cache name
    | none => addSession db cache name
  addSession (db : SessionsStore) (cache : List (String × Nat)) (name : String) :
      Except Unit (Nat × SessionsStore × List (String × Nat)) :=
    if db.rows.any (fun p => p.2 == name) then
      match db.rows.find? (fun p => p.2 == name) with
      | some p => if p.1 ≠ 0 then .ok (p.1, db, mapSet cache name p.1) else .error ()
      | none => .error ()
    else if db.nextId = 0 then .error ()
    else
      .ok (db.nextId,
        { nextId := db.nextId + 1, rows := db.rows ++ [(db.nextId, name)] },
        mapSet cache name db.nextId)

/-- Mutable state threaded through step 4 of `saveAISummaries`. -/
structure SaveCtx where
  db : SessionsStore
  cache : List (String × Nat)
  tabs : List Membership
deriving Repr, DecidableEq

/-- `store.put` on the `tabs` store: replace the row with the same URL key
or append a new row. -/
def upsertTab (tabs : List Membership) (m : Membership) : List Membership :=
  if tabs.any (fun x => x.url == m.url) then
    tabs.map (fun x => if x.url == m.url then m else x)
  else
    tabs ++ [m]

/-- The `url` local of the step-4 loop body:
`(typeof result.tab_id === 'string') ? result.tab_id : ''`. -/
def rowUrl (r : AIResult) : String :=
  match r.tab_id with
  | some u => u
  | none => ""

/-- Processing of one classification row in step 4: resolve (or create) the
session id first, then skip rows whose `tab_id` is not a known offered
URL, skip excluded URLs, and otherwise upsert the membership. -/
def processResult (tabTitles : List (String × String)) (excl : String → Bool)
    (ctx : SaveCtx) (r : AIResult) : Except Unit SaveCtx :=
  match getOrCreateSessionId ctx.db ctx.cache (jsOr r.session_name "Uncategorized") with
  | .error e => .error e
  | .ok (sessionId, db', cache') =>
    if rowUrl r == "" || !hasKey tabTitles (rowUrl r) then
      .ok { db := db', cache := cache', tabs := ctx.tabs }
    else if excl (rowUrl r) then
      .ok { db := db', cache := cache', tabs := ctx.tabs }
    else
      .ok { db := db', cache := cache',
            tabs := upsertTab ctx.tabs
              { url := rowUrl r,
                sessionId := sessionId,
                title := jsOrStr ((lookupStr tabTitles (rowUrl r)).getD "") "Untitled",
                summary := r.summarized_content } }

/-- The step-4 loop over all classification rows. -/
def saveLoop (tabTitles : List (String × String)) (excl : String → Bool) :
    SaveCtx → List AIResult → Except Unit SaveCtx
  | ctx, [] => .ok ctx
  | ctx, r :: rest =>
    match processResult tabTitles excl ctx r with
    | .error e => .error e
    | .ok ctx' => saveLoop tabTitles excl ctx' rest

/-- Step 5 of `saveAISummaries`: delete every session no membership refers
to. -/
def cleanupSessions (db : SessionsStore) (tabs : List Membership) : SessionsStore :=
  { db with rows := db.rows.filter (fun p => tabs.any (fun m => m.sessionId == p.1)) }

/-- Embedding of `saveAISummaries` (src/background.js): reconcile-delete,
load the session cache, upsert each result row, clean up empty sessions. -/
def saveAISummaries (aiResults : List AIResult) (tabTitles : List (String × String))
    (excl : String → Bool) (st : DBState) : Except Unit DBState :=
  match saveLoop tabTitles excl
      { db := st.sessions, cache := loadSessionsCache st.sessions,
        tabs := reconcileDelete (urlsFromAI aiResults tabTitles) st.tabs }
      aiResults with
  | .error e => .error e
  | .ok ctx => .ok { sessions := cleanupSessions ctx.db ctx.tabs, tabs := ctx.tabs }

end Background

namespace RateLimiter

/-- Drop reservation timestamps older than the window
(`timestamps.filter(t => now - t < windowMs)`). -/
def evict (windowMs now : Nat) (ts : List Nat) : List Nat :=
  ts.filter (fun t => decide (now - t < windowMs))

/-- One `acquire()` call of the `RateLimiter` class, as the loop body: evict
expired reservations; reserve the current instant if capacity remains;
otherwise sleep until the oldest reservation leaves the window and retry.
`fuel` bounds the number of loop iterations (each sleep expires the oldest
reservation, so `timestamps.length + 1` iterations always suffice); `none`
is returned only on fuel exhaustion, which the lemmas rule out. -/
def acquireGo (rpm windowMs : Nat) : Nat → List Nat → Nat → Option (List Nat × Nat)
  | 0, _, _ => none
  | fuel + 1, ts, now =>
    if (evict windowMs now ts).length < rpm then
      some (evict windowMs now ts ++ [now], now)
    else
      match evict windowMs now ts with
      | [] => none
      | t0 :: rest =>
        if 0 < windowMs - (now - t0) then
          acquireGo rpm windowMs fuel (t0 :: rest) (now + (windowMs - (now - t0)))
        else
          acquireGo rpm windowMs fuel (t0 :: rest) now

/-- `acquire()` with enough fuel for its loop to complete. -/
def acquire (rpm windowMs : Nat) (ts : List Nat) (now : Nat) : Option (List Nat × Nat) :=
  acquireGo rpm windowMs (ts.length + 1) ts now

/-- A serialized sequence of `acquire()` calls (the promise-chain mutex):
the i-th call starts when it arrives and the previous call has finished.
Returns the grant times and the final reservation list. -/
def runAcquires (rpm windowMs : Nat) : List Nat → List Nat → Nat → Option (List Nat × List Nat)
  | [], ts, _ => some ([], ts)
  | a :: rest, ts, now =>
    match acquire rpm windowMs ts (max a now) with
    | none => none
    | some (ts', g) =>
      match runAcquires rpm windowMs rest ts' g with
      | none => none
      | some (gs, tsf) => some (g :: gs, tsf)

/-- A reservation made at `x` is still inside the window at instant `m`. -/
def unexpired (windowMs m x : Nat) : Bool :=
  decide (m < x + windowMs)

/-- Granted instant `x` lies in the half-open window starting at `t`. -/
def inWindow (windowMs t x : Nat) : Bool :=
  decide (t ≤ x) && decide (x < t + windowMs)

/-- Admission-control certificate of a grant sequence: when each grant was
issued, fewer than `rpm` earlier grants were still inside the window. -/
def GrantsOK (windowMs rpm : Nat) (gs : List Nat) : Prop :=
  ∀ pre m post, gs = pre ++ m :: post →
    (pre.filter (unexpired windowMs m)).length < rpm

/-- Run invariant between serialized acquisitions: every reservation is in
the past, every still-unexpired grant is still reserved (with
multiplicity), and the grant history satisfies the admission
certificate. -/
def Inv (windowMs rpm : Nat) (gs ts : List Nat) (now : Nat) : Prop :=
  (∀ x ∈ ts, x ≤ now) ∧ List.Sublist (gs.filter (unexpired windowMs now)) ts ∧
    GrantsOK windowMs rpm gs

end RateLimiter

namespace Background

/-- Validity of one classification row relative to the offered titles:
exactly the condition under which step 4 does not skip it (before the
exclusion check). -/
def rowValid (tabTitles : List (String × String)) (r : AIResult) : Prop :=
  rowUrl r ≠ "" ∧ hasKey tabTitles (rowUrl r) = true

instance (tabTitles : List (String × String)) (r : AIResult) :
    Decidable (rowValid tabTitles r) := by
  unfold rowValid
  infer_instance

/-- The exclusion-filtered history, the lite-summarized current list, the
merged working set and the title lookup, composed as in steps 3-6 of
`collectAndSummarizeAllTabs`. -/
def pipelineHistory (excl : String → Bool) (histRaw : List Tab) : List Tab :=
  filteredHistory excl histRaw

/-- The summarized current tabs of one pipeline run. -/
def pipelineCurrent (excl : String → Bool) (allTabs : List RawTab) (histRaw : List Tab)
    (batch : List (String × String)) : List Tab :=
  summarizedCurrentTabs (pipelineHistory excl histRaw) (validTabs excl allTabs) batch

/-- The merged working set of one pipeline run. -/
def pipelineCombined (excl : String → Bool) (allTabs : List RawTab) (histRaw : List Tab)
    (batch : List (String × String)) : List Tab :=
  combinedTabs (pipelineHistory excl histRaw) (pipelineCurrent excl allTabs histRaw batch)

/-- The title lookup of one pipeline run. -/
def pipelineTitles (excl : String → Bool) (allTabs : List RawTab) (histRaw : List Tab)
    (batch : List (String × String)) : List (String × String) :=
  bestTitleByUrl (pipelineHistory excl histRaw) (validTabs excl allTabs)
    (pipelineCombined excl allTabs histRaw batch)

/-- Hostname oracle for the concrete exclusion run. -/
def wHost : String → String := fun u =>
  if u == "http://bad/p" then "bad.com" else if u == "http://ok/p" then "ok.com" else ""

/-- Exclusion rules of the concrete exclusion run. -/
def wRules : List String := ["bad.com"]

/-- Browser tabs of the concrete exclusion run: one excluded at query
time, one kept whose content script answers with its own URL. -/
def wAllTabs : List RawTab :=
  [{ hasId := true, url := "http://bad/p", pendingUrl := "",
     fetch := some { title := "B", url := "http://bad/p", content := "x" } },
   { hasId := true, url := "http://ok/p", pendingUrl := "",
     fetch := some { title := "O", url := "http://ok/p", content := "y" } }]

/-- Prior history of the concrete exclusion run: one excluded record. -/
def wHist : List Tab :=
  [{ title := "HB", url := "http://bad/p", content := "c", source := "history" }]

/-- Classifier output of the concrete exclusion run: a row for the excluded
URL. -/
def wAI : List AIResult :=
  [{ tab_id := some "http://bad/p", session_name := some "S", summarized_content := "sum" }]

/-- Durable state of the concrete exclusion run. -/
def wSt : DBState :=
  { sessions := { nextId := 1, rows := [] },
    tabs := [{ url := "http://other", sessionId := 1, title := "t", summary := "s" }] }

end Background

namespace FirebaseAi

/-- A tokenizer whose encoding distributes over concatenation (token
counts of pieces add up exactly). -/
def Additive (e : Encoding) : Prop :=
  ∀ a b : String, e.encode (a ++ b) = e.encode a ++ e.encode b

/-- The prompt actually sent to the model
(`const finalPrompt = promptTemplate + "\n" + tabsInput`,
src/firebase_ai.js): the joining newline is not part of the accounted
material. -/
def sentPrompt (e : Encoding) (maxTokens : Nat) (tabs : List Tab) : String :=
  promptTemplate ++ "\n" ++ (assemble e maxTokens tabs).tabsInput

/-- Document of the budget-saturation run. -/
def c3Tab : Tab :=
  { title := "T", url := "http://a", content := "", source := "current" }

/-- A budget that the accounted material consumes exactly: base prompt,
current-section header, and the one document block. -/
def c3M : Nat :=
  countTok charEnc promptTemplate +
    countTok charEnc ("\n" ++ "Newly collected open tabs:" ++ "\n") +
    countTok charEnc (tabHeader c3Tab ++ tabFooter)

end FirebaseAi

theorem length_dropWhile_le {α : Type} (p : α → Bool) (l : List α) :
    (l.dropWhile p).length ≤ l.length := by
  induction l with
  | nil => simp [List.dropWhile]
  | cons a l ih =>
    by_cases h : p a
    · simp [List.dropWhile, h]
      exact Nat.le_succ_of_le ih
    · simp [List.dropWhile, h]

namespace FirebaseAi

theorem appendTab_cases (e : Encoding) (m : Nat) (st : BudgetSt) (t : Tab) :
    appendTab e m st t = (st, false) ∨
    ((appendTab e m st t).2 = true ∧ (appendTab e m st t).1.totalTokens ≤ m) := by
  unfold appendTab
  split
  · exact Or.inl rfl
  · split
    · exact Or.inl rfl
    · rename_i hwrap hfin
      right
      refine ⟨rfl, ?_⟩
      simpa using Nat.le_of_not_lt hfin

theorem appendTab_fail_eq (e : Encoding) (m : Nat) (st : BudgetSt) (t : Tab)
    (h : (appendTab e m st t).2 = false) : (appendTab e m st t).1 = st := by
  rcases appendTab_cases e m st t with hc | ⟨hc, _⟩
  · rw [hc]
  · rw [hc] at h
    simp at h

theorem appendSectionHeader_cases (e : Encoding) (m : Nat) (st : BudgetSt)
    (text : String) :
    appendSectionHeader e m st text = (st, false) ∨
    ((appendSectionHeader e m st text).2 = true ∧
      (appendSectionHeader e m st text).1.totalTokens ≤ m) := by
  unfold appendSectionHeader
  split
  · rename_i hle
    right
    exact ⟨rfl, by simpa using hle⟩
  · exact Or.inl rfl

theorem appendLoop_good (e : Encoding) (m : Nat) (ts : List Tab) :
    ∀ st : BudgetSt, Good e m st → Good e m (appendLoop e m st ts) := by
  induction ts with
  | nil => intro st h; simpa [appendLoop] using h
  | cons t rest ih =>
    intro st h
    simp only [appendLoop]
    rcases appendTab_cases e m st t with hc | ⟨hc, hle⟩
    · rw [hc]
      simpa using h
    · rcases hr : appendTab e m st t with ⟨st', b⟩
      rw [hr] at hc hle
      simp at hc
      subst hc
      exact ih st' (Or.inl hle)

theorem appendLoop_count_le (e : Encoding) (m : Nat) (ts : List Tab) :
    ∀ st : BudgetSt, st.tabsInPrompt ≤ (appendLoop e m st ts).tabsInPrompt := by
  induction ts with
  | nil => intro st; simp [appendLoop]
  | cons t rest ih =>
    intro st
    simp only [appendLoop]
    rcases hr : appendTab e m st t with ⟨st', b⟩
    cases b
    · have := appendTab_fail_eq e m st t (by rw [hr])
      rw [hr] at this
      simp at this
      simp [this]
    · refine Nat.le_trans ?_ (ih st')
      have : st'.tabsInPrompt = st.tabsInPrompt ∨
          st'.tabsInPrompt = st.tabsInPrompt + 1 := by
        have hr2 := hr
        unfold appendTab at hr2
        split at hr2
        · simp at hr2
        · split at hr2
          · simp at hr2
          · simp at hr2
            right
            rw [← hr2]
      rcases this with h | h <;> omega

theorem section_good (e : Encoding) (m : Nat) (st : BudgetSt) (text : String)
    (ts : List Tab) (hst : Good e m st) :
    Good e m (match appendSectionHeader e m st text with
      | (st', true) => appendLoop e m st' ts
      | (st', false) => st') := by
  rcases appendSectionHeader_cases e m st text with hc | ⟨hc, hle⟩
  · rw [hc]
    simpa using hst
  · rcases hh : appendSectionHeader e m st text with ⟨st', b⟩
    rw [hh] at hc hle
    simp at hc
    subst hc
    exact appendLoop_good e m ts st' (Or.inl hle)

theorem ifSection_good (e : Encoding) (m : Nat) (st : BudgetSt) (c : Prop)
    [Decidable c] (text : String) (ts : List Tab) (hst : Good e m st) :
    Good e m (if c then
      (match appendSectionHeader e m st text with
        | (st', true) => appendLoop e m st' ts
        | (st', false) => st')
      else st) := by
  split
  · exact section_good e m st text ts hst
  · exact hst

theorem assemble_good (e : Encoding) (m : Nat) (tabs : List Tab) :
    Good e m (assemble e m tabs) := by
  simp only [assemble]
  exact ifSection_good e m _ _ _ _ (ifSection_good e m _ _ _ _ (Or.inr rfl))

theorem countTok_append (e : Encoding) (hadd : Additive e) (a b : String) :
    countTok e (a ++ b) = countTok e a + countTok e b := by
  unfold countTok
  rw [hadd a b, List.length_append]

theorem countTok_empty (e : Encoding) (hadd : Additive e) : countTok e "" = 0 := by
  have h2 : e.encode "" = e.encode "" ++ e.encode "" := hadd "" ""
  have h3 := congrArg List.length h2
  rw [List.length_append] at h3
  unfold countTok
  omega

theorem appendSectionHeader_input (e : Encoding) (hadd : Additive e) (m : Nat)
    (st : BudgetSt) (text : String)
    (hst : st.totalTokens = countTok e promptTemplate + countTok e st.tabsInput) :
    (appendSectionHeader e m st text).1.totalTokens =
      countTok e promptTemplate +
        countTok e (appendSectionHeader e m st text).1.tabsInput := by
  unfold appendSectionHeader
  split
  · show st.totalTokens + countTok e ("\n" ++ text ++ "\n") =
      countTok e promptTemplate +
        countTok e (st.tabsInput ++ ("\n" ++ text ++ "\n"))
    rw [countTok_append e hadd st.tabsInput ("\n" ++ text ++ "\n"), hst]
    omega
  · exact hst

theorem appendTab_input (e : Encoding) (hadd : Additive e) (m : Nat)
    (st : BudgetSt) (t : Tab)
    (hst : st.totalTokens = countTok e promptTemplate + countTok e st.tabsInput) :
    (appendTab e m st t).1.totalTokens =
      countTok e promptTemplate + countTok e (appendTab e m st t).1.tabsInput := by
  unfold appendTab
  split
  · exact hst
  · split
    · exact hst
    · show st.totalTokens + countTok e (finalBlock e m st.totalTokens t).1 =
        countTok e promptTemplate +
          countTok e (st.tabsInput ++ (finalBlock e m st.totalTokens t).1)
      rw [countTok_append e hadd st.tabsInput (finalBlock e m st.totalTokens t).1, hst]
      omega

theorem appendLoop_input (e : Encoding) (hadd : Additive e) (m : Nat) (ts : List Tab) :
    ∀ st : BudgetSt,
      st.totalTokens = countTok e promptTemplate + countTok e st.tabsInput →
      (appendLoop e m st ts).totalTokens =
        countTok e promptTemplate + countTok e (appendLoop e m st ts).tabsInput := by
  induction ts with
  | nil => intro st hst; exact hst
  | cons t rest ih =>
    intro st hst
    simp only [appendLoop]
    rcases hr : appendTab e m st t with ⟨st2, b⟩
    have hst2 : st2.totalTokens = countTok e promptTemplate + countTok e st2.tabsInput := by
      have := appendTab_input e hadd m st t hst
      rw [hr] at this
      exact this
    cases b
    · exact hst2
    · exact ih st2 hst2

theorem assemble_totalTokens_eq (e : Encoding) (hadd : Additive e) (m : Nat)
    (tabs : List Tab) :
    (assemble e m tabs).totalTokens =
      countTok e promptTemplate + countTok e (assemble e m tabs).tabsInput := by
  have h0 : (initSt e).totalTokens =
      countTok e promptTemplate + countTok e (initSt e).tabsInput := by
    show countTok e promptTemplate = countTok e promptTemplate + countTok e ""
    rw [countTok_empty e hadd]
    omega
  have hsec : ∀ (st : BudgetSt) (text : String) (ts : List Tab),
      st.totalTokens = countTok e promptTemplate + countTok e st.tabsInput →
      (match appendSectionHeader e m st text with
        | (st2, true) => appendLoop e m st2 ts
        | (st2, false) => st2).totalTokens =
        countTok e promptTemplate + countTok e
          (match appendSectionHeader e m st text with
            | (st2, true) => appendLoop e m st2 ts
            | (st2, false) => st2).tabsInput := by
    intro st text ts hst
    rcases hh : appendSectionHeader e m st text with ⟨st2, b⟩
    have hst2 : st2.totalTokens =
        countTok e promptTemplate + countTok e st2.tabsInput := by
      have := appendSectionHeader_input e hadd m st text hst
      rw [hh] at this
      exact this
    cases b
    · exact hst2
    · exact appendLoop_input e hadd m ts st2 hst2
  simp only [assemble]
  split
  · exact hsec _ _ _ (by
      split
      · exact hsec _ _ _ h0
      · exact h0)
  · split
    · exact hsec _ _ _ h0
    · exact h0

/-- C3 amended: the budgeter bounds its ACCOUNTED total, not the sent
prompt.  For every tokenizer, budget and input list, whenever the
assembled prompt contains at least one document (the only case in which
`summarizeTabs` sends a request): the accounted token total is at most
`maxTokens`, and a per-document block whose re-measured encoding would
push the total past the budget is dropped by `appendTab` rather than
included.  The prompt actually sent is `promptTemplate + "\n" +
tabsInput`, whose joining newline is never accounted: for a tokenizer
whose encoding distributes over concatenation, the sent prompt's token
count equals the accounted total plus the newline's count, so it is
bounded only by `maxTokens + countTok e "\n"` and exceeds `maxTokens` at
exact budget saturation (see the counterexample). -/
theorem summarizeTabs_budget (e : Encoding) (maxTokens : Nat) (tabs : List Tab)
    (hsent : 1 ≤ (assemble e maxTokens tabs).tabsInPrompt) :
    (assemble e maxTokens tabs).totalTokens ≤ maxTokens ∧
    (Additive e → countTok e (sentPrompt e maxTokens tabs) =
      (assemble e maxTokens tabs).totalTokens + countTok e "\n") ∧
    (Additive e → countTok e (sentPrompt e maxTokens tabs) ≤
      maxTokens + countTok e "\n") ∧
    (∀ (st : BudgetSt) (t : Tab),
      st.totalTokens + countTok e (finalBlock e maxTokens st.totalTokens t).1 > maxTokens →
      appendTab e maxTokens st t = (st, false)) := by
  have hbound : (assemble e maxTokens tabs).totalTokens ≤ maxTokens := by
    rcases assemble_good e maxTokens tabs with h | h
    · exact h
    · rw [h] at hsent
      simp [initSt] at hsent
  have heq : Additive e → countTok e (sentPrompt e maxTokens tabs) =
      (assemble e maxTokens tabs).totalTokens + countTok e "\n" := by
    intro hadd
    unfold sentPrompt
    rw [countTok_append e hadd, countTok_append e hadd,
      assemble_totalTokens_eq e hadd maxTokens tabs]
    omega
  refine ⟨hbound, heq, ?_, ?_⟩
  · intro hadd
    rw [heq hadd]
    omega
  · intro st t hover
    by_cases hw : st.totalTokens + (countTok e (tabHeader t) + countTok e tabFooter) > maxTokens
    · simp [appendTab, hw]
    · simp [appendTab, hw, hover]

/-- C3 amended witness: a concrete run with the trivial (additive)
tokenizer in which one document is included; the accounted total stays
within the budget of 10 and the sent prompt obeys the newline-adjusted
bound. -/
theorem summarizeTabs_budget_witness :
    1 ≤ (assemble zeroEnc 10 [wTab]).tabsInPrompt ∧
    Additive zeroEnc ∧
    ((assemble zeroEnc 10 [wTab]).totalTokens ≤ 10 ∧
      countTok zeroEnc (sentPrompt zeroEnc 10 [wTab]) =
        (assemble zeroEnc 10 [wTab]).totalTokens + countTok zeroEnc "\n" ∧
      countTok zeroEnc (sentPrompt zeroEnc 10 [wTab]) ≤ 10 + countTok zeroEnc "\n") := by
  have hadd : Additive zeroEnc := fun a b => rfl
  have h := summarizeTabs_budget zeroEnc 10 [wTab] (by decide)
  exact ⟨by decide, hadd, h.1, h.2.1 hadd, h.2.2.1 hadd⟩

/-- C3 counterexample: under the character tokenizer, a budget that the
accounted material consumes exactly (base prompt, section header, one
empty-content document block) yields a sent prompt of `c3M + 1` tokens —
the unaccounted joining newline pushes the transmitted prompt past the
budget even though the accounting stayed within it. -/
theorem summarizeTabs_sent_exceeds :
    1 ≤ (assemble charEnc c3M [c3Tab]).tabsInPrompt ∧
    (assemble charEnc c3M [c3Tab]).totalTokens = c3M ∧
    countTok charEnc (sentPrompt charEnc c3M [c3Tab]) = c3M + 1 ∧
    ¬(countTok charEnc (sentPrompt charEnc c3M [c3Tab]) ≤ c3M) := by
  refine ⟨by decide, by decide, by decide, by decide⟩

theorem appendTab_truncations_le (e : Encoding) (m : Nat) (st : BudgetSt) (t : Tab) :
    st.truncations ≤ (appendTab e m st t).1.truncations := by
  unfold appendTab
  split
  · exact Nat.le_refl _
  · split
    · exact Nat.le_refl _
    · simp

theorem appendLoop_truncations_le (e : Encoding) (m : Nat) (ts : List Tab) :
    ∀ st : BudgetSt, st.truncations ≤ (appendLoop e m st ts).truncations := by
  induction ts with
  | nil => intro st; simp [appendLoop]
  | cons t rest ih =>
    intro st
    simp only [appendLoop]
    rcases hr : appendTab e m st t with ⟨st', b⟩
    have hle : st.truncations ≤ st'.truncations := by
      have h := appendTab_truncations_le e m st t
      rw [hr] at h
      exact h
    cases b
    · exact hle
    · exact Nat.le_trans hle (ih st')

theorem finalBlock_not_trunc_mono (e : Encoding) (m1 m2 total : Nat) (t : Tab)
    (hm : m1 ≤ m2) (h : (finalBlock e m1 total t).2 = false) :
    finalBlock e m2 total t = finalBlock e m1 total t := by
  simp only [finalBlock] at h ⊢
  by_cases hc : (e.encode (normalizeContent t.content)).length >
      m1 - total - (countTok e (tabHeader t) + countTok e tabFooter)
  · rw [if_pos hc] at h
    simp at h
  · have hmono : m1 - total - (countTok e (tabHeader t) + countTok e tabFooter) ≤
        m2 - total - (countTok e (tabHeader t) + countTok e tabFooter) :=
      Nat.sub_le_sub_right (Nat.sub_le_sub_right hm _) _
    have h2 : ¬((e.encode (normalizeContent t.content)).length >
        m2 - total - (countTok e (tabHeader t) + countTok e tabFooter)) := by
      omega
    rw [if_neg h2, if_neg hc]

theorem appendTab_mono_eq (e : Encoding) (m1 m2 : Nat) (st st' : BudgetSt) (t : Tab)
    (hm : m1 ≤ m2) (hr : appendTab e m1 st t = (st', true))
    (htr : st'.truncations = st.truncations) :
    appendTab e m2 st t = (st', true) := by
  have hr2 := hr
  unfold appendTab at hr2
  split at hr2
  · simp at hr2
  · split at hr2
    · simp at hr2
    · rename_i hwrap hfin
      simp only [Prod.mk.injEq] at hr2
      obtain ⟨hst', _⟩ := hr2
      have hblock : (finalBlock e m1 st.totalTokens t).2 = false := by
        by_contra hb
        simp only [Bool.not_eq_false] at hb
        rw [← hst'] at htr
        simp [hb] at htr
      have hfb := finalBlock_not_trunc_mono e m1 m2 st.totalTokens t hm hblock
      have hwrap2 : ¬(st.totalTokens + (countTok e (tabHeader t) + countTok e tabFooter) > m2) := by
        omega
      have hfin2 : ¬(st.totalTokens + countTok e (finalBlock e m2 st.totalTokens t).1 > m2) := by
        rw [hfb]
        omega
      unfold appendTab
      rw [if_neg hwrap2, if_neg hfin2, hfb, hst']

theorem appendLoop_mono (e : Encoding) (m1 m2 : Nat) (hm : m1 ≤ m2) (ts : List Tab) :
    ∀ st : BudgetSt, (appendLoop e m1 st ts).truncations = st.truncations →
    (appendLoop e m1 st ts).tabsInPrompt ≤ (appendLoop e m2 st ts).tabsInPrompt := by
  induction ts with
  | nil => intro st _; simp [appendLoop]
  | cons t rest ih =>
    intro st htf
    rcases hr : appendTab e m1 st t with ⟨st1, b⟩
    cases b
    · have hL1 : appendLoop e m1 st (t :: rest) = st1 := by
        simp only [appendLoop, hr]
      have heq : st1 = st := by
        have h := appendTab_fail_eq e m1 st t (by rw [hr])
        rwa [hr] at h
      rw [hL1, heq]
      exact appendLoop_count_le e m2 (t :: rest) st
    · have hL1 : appendLoop e m1 st (t :: rest) = appendLoop e m1 st1 rest := by
        simp only [appendLoop, hr]
      have htr1 : st1.truncations = st.truncations := by
        have h1 : st.truncations ≤ st1.truncations := by
          have h := appendTab_truncations_le e m1 st t
          rw [hr] at h
          exact h
        have h2 : st1.truncations ≤ (appendLoop e m1 st1 rest).truncations :=
          appendLoop_truncations_le e m1 rest st1
        rw [hL1] at htf
        omega
      have hr2 := appendTab_mono_eq e m1 m2 st st1 t hm hr htr1
      have hL2 : appendLoop e m2 st (t :: rest) = appendLoop e m2 st1 rest := by
        simp only [appendLoop, hr2]
      rw [hL1, hL2]
      apply ih st1
      rw [hL1] at htf
      rw [htf, htr1]

theorem appendSectionHeader_mono (e : Encoding) (m1 m2 : Nat) (st st' : BudgetSt)
    (text : String) (hm : m1 ≤ m2)
    (h : appendSectionHeader e m1 st text = (st', true)) :
    appendSectionHeader e m2 st text = (st', true) := by
  unfold appendSectionHeader at *
  split at h
  · rename_i hle
    rw [if_pos (Nat.le_trans hle hm)]
    exact h
  · simp at h

theorem appendSectionHeader_truncations (e : Encoding) (m : Nat) (st : BudgetSt)
    (text : String) :
    (appendSectionHeader e m st text).1.truncations = st.truncations := by
  unfold appendSectionHeader
  split <;> rfl

theorem assemble_no_history (e : Encoding) (m : Nat) (tabs : List Tab)
    (hhist : tabs.filter (fun t => t.source == "history") = []) :
    assemble e m tabs =
      (if (tabs.filter (fun t => t.source != "history")).length > 0 then
        match appendSectionHeader e m (initSt e) "Newly collected open tabs:" with
        | (st', true) => appendLoop e m st' (tabs.filter (fun t => t.source != "history"))
        | (st', false) => st'
      else initSt e) := by
  simp [assemble, hhist]

/-- C8 amended: for a fixed tokenizer and a fixed input list in which every
document is freshly collected (so the prompt has a single document
section), if no document content is truncated under the smaller budget,
then the number of documents included in the assembled prompt is monotone
in the budget.  (The unamended claim fails: the two-section layout lets a
larger budget admit the historical section header and a large historical
document, starving the current section; see the counterexample.) -/
theorem summarizeTabs_count_monotone (e : Encoding) (tabs : List Tab) (m1 m2 : Nat)
    (hm : m1 ≤ m2)
    (hhist : tabs.filter (fun t => t.source == "history") = [])
    (htf : (assemble e m1 tabs).truncations = 0) :
    (assemble e m1 tabs).tabsInPrompt ≤ (assemble e m2 tabs).tabsInPrompt := by
  rw [assemble_no_history e m1 tabs hhist] at htf ⊢
  rw [assemble_no_history e m2 tabs hhist]
  by_cases hc : (tabs.filter (fun t => t.source != "history")).length > 0
  · rw [if_pos hc] at htf ⊢
    rw [if_pos hc]
    rcases hh : appendSectionHeader e m1 (initSt e) "Newly collected open tabs:" with ⟨st', b⟩
    cases b
    · have hfail : st' = initSt e := by
        rcases appendSectionHeader_cases e m1 (initSt e) "Newly collected open tabs:" with hcs | ⟨hcs, _⟩
        · rw [hh] at hcs
          simp only [Prod.mk.injEq] at hcs
          exact hcs.1
        · rw [hh] at hcs
          simp at hcs
      show st'.tabsInPrompt ≤ _
      rw [hfail]
      exact Nat.zero_le _
    · have hh2 := appendSectionHeader_mono e m1 m2 (initSt e) st'
        "Newly collected open tabs:" hm hh
      rw [hh2]
      show (appendLoop e m1 st' (tabs.filter (fun t => t.source != "history"))).tabsInPrompt ≤
        (appendLoop e m2 st' (tabs.filter (fun t => t.source != "history"))).tabsInPrompt
      rw [hh] at htf
      have htf' : (appendLoop e m1 st' (tabs.filter (fun t => t.source != "history"))).truncations = 0 := htf
      have hst' : st'.truncations = 0 := by
        have h := appendSectionHeader_truncations e m1 (initSt e) "Newly collected open tabs:"
        rw [hh] at h
        have h2 := appendLoop_truncations_le e m1 (tabs.filter (fun t => t.source != "history")) st'
        omega
      apply appendLoop_mono e m1 m2 hm
      rw [htf', hst']
  · rw [if_neg hc] at htf ⊢
    rw [if_neg hc]

/-- C8 amended witness: a concrete single-section, truncation-free run with
budgets 5 and 7. -/
theorem summarizeTabs_count_monotone_witness :
    5 ≤ 7 ∧ [wTab].filter (fun t => t.source == "history") = [] ∧
    (assemble zeroEnc 5 [wTab]).truncations = 0 ∧
    (assemble zeroEnc 5 [wTab]).tabsInPrompt ≤ (assemble zeroEnc 7 [wTab]).tabsInPrompt :=
  ⟨by decide, by decide, by decide,
    summarizeTabs_count_monotone zeroEnc [wTab] 5 7 (by decide) (by decide) (by decide)⟩

/-- C8 counterexample: under the character tokenizer, raising the budget
from `cexB1` to `cexB2` DECREASES the number of documents included in the
assembled prompt from 2 to 1, refuting budget-monotonicity of the
included-document count as claimed. -/
theorem summarizeTabs_count_not_monotone :
    cexB1 ≤ cexB2 ∧
    (assemble charEnc cexB1 cexTabs).tabsInPrompt = 2 ∧
    (assemble charEnc cexB2 cexTabs).tabsInPrompt = 1 ∧
    ¬((assemble charEnc cexB1 cexTabs).tabsInPrompt ≤
      (assemble charEnc cexB2 cexTabs).tabsInPrompt) := by
  refine ⟨by decide, by decide, by decide, by decide⟩

end FirebaseAi

namespace RateLimiter

theorem mem_evict {windowMs now : Nat} {ts : List Nat} {x : Nat} :
    x ∈ evict windowMs now ts ↔ x ∈ ts ∧ now - x < windowMs := by
  simp [evict]

theorem evict_evict {windowMs now m : Nat} (ts : List Nat) (h : now ≤ m)
    (hts : ∀ x ∈ ts, x ≤ now) :
    evict windowMs m (evict windowMs now ts) = evict windowMs m ts := by
  simp only [evict, List.filter_filter]
  apply List.filter_congr
  intro x hx
  have hxn := hts x hx
  by_cases hm : m - x < windowMs
  · have hn : now - x < windowMs := by omega
    simp [hm, hn]
  · simp [hm]

theorem filter_unexpired_trans {windowMs now m : Nat} (gs : List Nat) (h : now ≤ m) :
    gs.filter (unexpired windowMs m) =
      (gs.filter (unexpired windowMs now)).filter (unexpired windowMs m) := by
  simp only [List.filter_filter]
  apply List.filter_congr
  intro x _
  by_cases hm : unexpired windowMs m x = true
  · have hn : unexpired windowMs now x = true := by
      simp only [unexpired, decide_eq_true_eq] at *
      omega
    simp [hm, hn]
  · simp only [Bool.not_eq_true] at hm
    simp [hm]

theorem filter_unexpired_sublist {windowMs now m : Nat} {gs ts : List Nat}
    (h : now ≤ m) (hsub : List.Sublist (gs.filter (unexpired windowMs now)) ts) :
    List.Sublist (gs.filter (unexpired windowMs m)) ts := by
  rw [filter_unexpired_trans gs h]
  exact List.Sublist.trans (List.filter_sublist _) hsub

theorem evict_eq_filter_unexpired {windowMs now : Nat} (ts : List Nat)
    (hts : ∀ x ∈ ts, x ≤ now) :
    evict windowMs now ts = ts.filter (unexpired windowMs now) := by
  apply List.filter_congr
  intro x hx
  have := hts x hx
  simp only [unexpired, decide_eq_true_eq, decide_eq_decide]
  omega

theorem acquireGo_spec (rpm windowMs : Nat) :
    ∀ (fuel : Nat) (ts : List Nat) (now : Nat) (ts' : List Nat) (g : Nat),
      acquireGo rpm windowMs fuel ts now = some (ts', g) →
      (∀ x ∈ ts, x ≤ now) →
      now ≤ g ∧ ts' = evict windowMs g ts ++ [g] ∧ (evict windowMs g ts).length < rpm := by
  intro fuel
  induction fuel with
  | zero => intro ts now ts' g h _; simp [acquireGo] at h
  | succ n ih =>
    intro ts now ts' g h hts
    simp only [acquireGo] at h
    split at h
    · rename_i hlt
      simp only [Option.some.injEq, Prod.mk.injEq] at h
      obtain ⟨hts', hg⟩ := h
      subst hg
      exact ⟨Nat.le_refl _, hts'.symm, hlt⟩
    · rcases hev : evict windowMs now ts with _ | ⟨t0, rest⟩ <;> rw [hev] at h
      · simp at h
      · have h' : (if 0 < windowMs - (now - t0) then
            acquireGo rpm windowMs n (t0 :: rest) (now + (windowMs - (now - t0)))
          else acquireGo rpm windowMs n (t0 :: rest) now) = some (ts', g) := h
        have hmemts : ∀ x ∈ (t0 :: rest), x ∈ ts := by
          intro x hx
          exact (mem_evict.mp (hev ▸ hx)).1
        split at h'
        · have hts2 : ∀ x ∈ (t0 :: rest), x ≤ now + (windowMs - (now - t0)) := by
            intro x hx
            have := hts x (hmemts x hx)
            omega
          obtain ⟨h1, h2, h3⟩ := ih (t0 :: rest) _ ts' g h' hts2
          have hng : now ≤ g := Nat.le_trans (Nat.le_add_right _ _) h1
          have hee : evict windowMs g (t0 :: rest) = evict windowMs g ts := by
            rw [← hev]
            exact evict_evict ts hng hts
          rw [hee] at h2 h3
          exact ⟨hng, h2, h3⟩
        · have hts2 : ∀ x ∈ (t0 :: rest), x ≤ now := fun x hx => hts x (hmemts x hx)
          obtain ⟨h1, h2, h3⟩ := ih (t0 :: rest) now ts' g h' hts2
          have hee : evict windowMs g (t0 :: rest) = evict windowMs g ts := by
            rw [← hev]
            exact evict_evict ts h1 hts
          rw [hee] at h2 h3
          exact ⟨h1, h2, h3⟩

theorem acquireGo_isSome (rpm windowMs : Nat) (hrpm : 1 ≤ rpm) :
    ∀ (fuel : Nat) (ts : List Nat) (now : Nat),
      (∀ x ∈ ts, x ≤ now) → (evict windowMs now ts).length < fuel →
      (acquireGo rpm windowMs fuel ts now).isSome = true := by
  intro fuel
  induction fuel with
  | zero => intro ts now _ hlt; omega
  | succ n ih =>
    intro ts now hts hlt
    simp only [acquireGo]
    split
    · simp
    · rename_i hge
      rcases hev : evict windowMs now ts with _ | ⟨t0, rest⟩
      · rw [hev] at hge
        simp at hge
        omega
      · rw [hev] at hge hlt
        have ht0 : t0 ∈ evict windowMs now ts := by
          rw [hev]
          exact List.mem_cons_self _ _
        have ht0w : now - t0 < windowMs := (mem_evict.mp ht0).2
        have ht0ts : t0 ∈ ts := (mem_evict.mp ht0).1
        have ht0le : t0 ≤ now := hts t0 ht0ts
        have hwait : 0 < windowMs - (now - t0) := by omega
        show (if 0 < windowMs - (now - t0) then
            acquireGo rpm windowMs n (t0 :: rest) (now + (windowMs - (now - t0)))
          else acquireGo rpm windowMs n (t0 :: rest) now).isSome = true
        rw [if_pos hwait]
        apply ih
        · intro x hx
          have hmem : x ∈ evict windowMs now ts := hev ▸ hx
          have := hts x (mem_evict.mp hmem).1
          omega
        · have ht0f : ¬((now + (windowMs - (now - t0))) - t0 < windowMs) := by omega
          simp only [evict, List.filter_cons, decide_eq_true_eq]
          rw [if_neg (by simpa using ht0f)]
          have hlen := List.length_filter_le
            (fun t => decide (now + (windowMs - (now - t0)) - t < windowMs)) rest
          simp only [List.length_cons] at hlt
          omega

theorem acquire_isSome (rpm windowMs : Nat) (hrpm : 1 ≤ rpm) (ts : List Nat) (now : Nat)
    (hts : ∀ x ∈ ts, x ≤ now) : (acquire rpm windowMs ts now).isSome = true := by
  apply acquireGo_isSome rpm windowMs hrpm _ ts now hts
  exact Nat.lt_succ_of_le (List.length_filter_le _ ts)

theorem length_filter_le_of_imp {α : Type} (l : List α) (p q : α → Bool)
    (h : ∀ a ∈ l, p a = true → q a = true) :
    (l.filter p).length ≤ (l.filter q).length := by
  induction l with
  | nil => simp
  | cons a l ih =>
    have ih' := ih (fun x hx hp => h x (List.mem_cons_of_mem a hx) hp)
    simp only [List.filter_cons]
    by_cases hp : p a = true
    · rw [if_pos hp, if_pos (h a (List.mem_cons_self a l) hp)]
      simpa using ih'
    · rw [if_neg hp]
      split
      · exact Nat.le_trans ih' (by simp)
      · exact ih'

theorem grantsOK_append (windowMs rpm : Nat) (gs : List Nat) (g : Nat)
    (h3 : GrantsOK windowMs rpm gs)
    (hlast : (gs.filter (unexpired windowMs g)).length < rpm) :
    GrantsOK windowMs rpm (gs ++ [g]) := by
  intro pre m post heq
  rcases List.eq_nil_or_concat post with hpost | ⟨post', x, rfl⟩
  · subst hpost
    have hl : gs.length = pre.length := by
      have := congrArg List.length heq
      simp at this
      omega
    obtain ⟨h4, h5⟩ := List.append_inj heq hl
    have hg : g = m := by simpa using h5
    subst hg
    rw [← h4]
    exact hlast
  · have heq2 : gs ++ [g] = (pre ++ m :: post') ++ [x] := by
      rw [heq]
      simp
    have hl : gs.length = (pre ++ m :: post').length := by
      have := congrArg List.length heq2
      simp at this
      simp
      omega
    obtain ⟨h4, _⟩ := List.append_inj heq2 hl
    exact h3 pre m post' h4

theorem acquire_step (rpm windowMs : Nat) (hrpm : 1 ≤ rpm) (gs ts : List Nat)
    (now s : Nat) (hinv : Inv windowMs rpm gs ts now) (hs : now ≤ s) :
    ∃ ts' g, acquire rpm windowMs ts s = some (ts', g) ∧ s ≤ g ∧
      Inv windowMs rpm (gs ++ [g]) ts' g := by
  obtain ⟨h1, h2, h3⟩ := hinv
  have hts_s : ∀ x ∈ ts, x ≤ s := fun x hx => Nat.le_trans (h1 x hx) hs
  have hsome := acquire_isSome rpm windowMs hrpm ts s hts_s
  rcases hacq : acquire rpm windowMs ts s with _ | ⟨ts', g⟩
  · rw [hacq] at hsome
    simp at hsome
  · obtain ⟨hg, hts', hlen⟩ := acquireGo_spec rpm windowMs _ ts s ts' g hacq hts_s
    have hts_g : ∀ x ∈ ts, x ≤ g := fun x hx => Nat.le_trans (hts_s x hx) hg
    have hfil : ts.filter (unexpired windowMs g) = evict windowMs g ts :=
      (evict_eq_filter_unexpired ts hts_g).symm
    have hchain : List.Sublist (gs.filter (unexpired windowMs g)) (evict windowMs g ts) := by
      rw [filter_unexpired_trans gs (Nat.le_trans hs hg)]
      have hsub2 := List.Sublist.filter (unexpired windowMs g) h2
      rw [hfil] at hsub2
      exact hsub2
  -- hmm: reorganize below
    refine ⟨ts', g, rfl, hg, ?_, ?_, ?_⟩
    · intro x hx
      rw [hts'] at hx
      rcases List.mem_append.mp hx with hx | hx
      · exact Nat.le_trans (hts_g x (mem_evict.mp hx).1) (Nat.le_refl _)
      · simp at hx
        omega
    · rw [hts', List.filter_append]
      exact List.Sublist.append hchain (List.filter_sublist _)
    · exact grantsOK_append windowMs rpm gs g h3
        (Nat.lt_of_le_of_lt (List.Sublist.length_le hchain) hlen)

theorem runAcquires_inv (rpm windowMs : Nat) (hrpm : 1 ≤ rpm) :
    ∀ (arrivals : List Nat) (gs ts : List Nat) (now : Nat),
      Inv windowMs rpm gs ts now →
      ∃ gs' tsf now', runAcquires rpm windowMs arrivals ts now = some (gs', tsf) ∧
        Inv windowMs rpm (gs ++ gs') tsf now' := by
  intro arrivals
  induction arrivals with
  | nil =>
    intro gs ts now hinv
    exact ⟨[], ts, now, rfl, by simpa using hinv⟩
  | cons a rest ih =>
    intro gs ts now hinv
    obtain ⟨ts', g, hacq, hg, hinv'⟩ :=
      acquire_step rpm windowMs hrpm gs ts now (max a now) hinv (Nat.le_max_right a now)
    obtain ⟨gs'', tsf, now', hrun, hinv''⟩ := ih (gs ++ [g]) ts' g hinv'
    refine ⟨g :: gs'', tsf, now', ?_, ?_⟩
    · simp only [runAcquires, hacq, hrun]
    · simpa using hinv''

theorem window_of_grantsOK (windowMs rpm : Nat) :
    ∀ gs : List Nat, GrantsOK windowMs rpm gs →
      ∀ t, (gs.filter (inWindow windowMs t)).length ≤ rpm := by
  intro gs
  induction gs using List.reverseRecOn with
  | nil => intro _ t; simp
  | append_singleton l m ih =>
    intro hok t
    have hokl : GrantsOK windowMs rpm l := by
      intro pre mm post heq
      exact hok pre mm (post ++ [m]) (by rw [heq]; simp)
    rw [List.filter_append]
    by_cases hm : inWindow windowMs t m = true
    · have hcert := hok l m [] rfl
      have hsub : (l.filter (inWindow windowMs t)).length ≤
          (l.filter (unexpired windowMs m)).length := by
        apply length_filter_le_of_imp
        intro x _ hx
        simp only [inWindow, Bool.and_eq_true, decide_eq_true_eq] at hx hm
        simp only [unexpired, decide_eq_true_eq]
        omega
      have hmlen : ([m].filter (inWindow windowMs t)).length = 1 := by
        simp [hm]
      rw [List.length_append, hmlen]
      omega
    · have hmlen : ([m].filter (inWindow windowMs t)).length = 0 := by
        simp only [Bool.not_eq_true] at hm
        simp [hm]
      rw [List.length_append, hmlen]
      simpa using ih hokl t

end RateLimiter

namespace Background

theorem addSession_ok (db : SessionsStore) (cache : List (String × Nat)) (name : String)
    (hdb : SessPos db) :
    ∃ id db' cache',
      getOrCreateSessionId.addSession db cache name = .ok (id, db', cache') ∧
      SessPos db' ∧
      (db'.rows = db.rows ∨ db'.rows = db.rows ++ [(db.nextId, name)]) := by
  obtain ⟨h1, h2⟩ := hdb
  unfold getOrCreateSessionId.addSession
  split
  · rename_i hany
    rcases hf : (db.rows.find? (fun p => p.2 == name)) with _ | p
    · exfalso
      simp only [List.any_eq_true] at hany
      obtain ⟨p, hp, hpn⟩ := hany
      have := List.find?_eq_none.mp hf p hp
      simp [hpn] at this
    · have hmem := List.mem_of_find?_eq_some hf
      have hpos := (h2 p hmem).1
      have hne : p.1 ≠ 0 := by omega
      refine ⟨p.1, db, mapSet cache name p.1, ?_, ⟨h1, h2⟩, Or.inl rfl⟩
      rw [hf]
      simp [hne]
  · rw [if_neg (show ¬ db.nextId = 0 by omega)]
    refine ⟨db.nextId, _, _, rfl, ⟨?_, ?_⟩, Or.inr rfl⟩
    · show 1 ≤ db.nextId + 1
      omega
    · intro p hp
      simp only [List.mem_append, List.mem_singleton] at hp
      show 1 ≤ p.1 ∧ p.1 < db.nextId + 1
      rcases hp with hp | hp
      · have := h2 p hp
        omega
      · subst hp
        simp
        omega

theorem getOrCreateUncached_ok (db : SessionsStore) (cache : List (String × Nat))
    (name : String) (hdb : SessPos db) :
    ∃ id db' cache',
      getOrCreateSessionId.getOrCreateUncached db cache name = .ok (id, db', cache') ∧
      SessPos db' ∧
      (db'.rows = db.rows ∨ db'.rows = db.rows ++ [(db.nextId, name)]) := by
  unfold getOrCreateSessionId.getOrCreateUncached
  rcases hf : (db.rows.find? (fun p => p.2 == name)) with _ | p
  · rw [hf]
    exact addSession_ok db cache name hdb
  · have hmem := List.mem_of_find?_eq_some hf
    have hpos := (hdb.2 p hmem).1
    have hne : p.1 ≠ 0 := by omega
    refine ⟨p.1, db, mapSet cache name p.1, ?_, hdb, Or.inl rfl⟩
    rw [hf]
    simp [hne]

theorem getOrCreateSessionId_ok (db : SessionsStore) (cache : List (String × Nat))
    (name : String) (hdb : SessPos db) :
    ∃ id db' cache',
      getOrCreateSessionId db cache name = .ok (id, db', cache') ∧
      SessPos db' ∧
      (db'.rows = db.rows ∨ db'.rows = db.rows ++ [(db.nextId, name)]) := by
  unfold getOrCreateSessionId
  rcases hl : lookupStr cache name with _ | id
  · exact getOrCreateUncached_ok db cache name hdb
  · by_cases hz : id ≠ 0
    · refine ⟨id, db, cache, ?_, hdb, Or.inl rfl⟩
      simp [hz]
    · obtain ⟨i, db', cache', hg, hdb', hr⟩ := getOrCreateUncached_ok db cache name hdb
      refine ⟨i, db', cache', ?_, hdb', hr⟩
      simp only [ne_eq, not_not] at hz
      simp [hz, hg]

theorem upsertTab_presence (tabs : List Membership) (v : Membership) (u : String)
    (h : ∃ m ∈ tabs, m.url = u) : ∃ m ∈ upsertTab tabs v, m.url = u := by
  obtain ⟨m, hm, hu⟩ := h
  unfold upsertTab
  split
  · by_cases hmv : m.url == v.url
    · refine ⟨v, List.mem_map.mpr ⟨m, hm, by simp [hmv]⟩, ?_⟩
      have : m.url = v.url := by simpa using hmv
      rw [← this, hu]
    · exact ⟨m, List.mem_map.mpr ⟨m, hm, by simp [hmv]⟩, hu⟩
  · exact ⟨m, List.mem_append_left _ hm, hu⟩

theorem upsertTab_self (tabs : List Membership) (v : Membership) :
    ∃ m ∈ upsertTab tabs v, m.url = v.url := by
  unfold upsertTab
  split
  · rename_i hany
    simp only [List.any_eq_true] at hany
    obtain ⟨x, hx, hxv⟩ := hany
    refine ⟨v, List.mem_map.mpr ⟨x, hx, by simp [hxv]⟩, rfl⟩
  · exact ⟨v, List.mem_append_right _ (List.mem_singleton.mpr rfl), rfl⟩

theorem mem_upsertTab (tabs : List Membership) (v : Membership) (m : Membership)
    (h : m ∈ upsertTab tabs v) : m ∈ tabs ∨ m = v := by
  unfold upsertTab at h
  split at h
  · rcases List.mem_map.mp h with ⟨x, hx, hxm⟩
    by_cases hxv : x.url == v.url
    · rw [if_pos hxv] at hxm
      exact Or.inr hxm.symm
    · rw [if_neg hxv] at hxm
      exact Or.inl (hxm ▸ hx)
  · rcases List.mem_append.mp h with h | h
    · exact Or.inl h
    · exact Or.inr (List.mem_singleton.mp h)

theorem processResult_spec (tabTitles : List (String × String)) (excl : String → Bool)
    (ctx : SaveCtx) (r : AIResult) (hdb : SessPos ctx.db) :
    ∃ ctx', processResult tabTitles excl ctx r = .ok ctx' ∧ SessPos ctx'.db ∧
      (ctx'.db.rows = ctx.db.rows ∨
        ctx'.db.rows = ctx.db.rows ++ [(ctx.db.nextId, jsOr r.session_name "Uncategorized")]) ∧
      ((¬ rowValid tabTitles r ∨ excl (rowUrl r) = true) → ctx'.tabs = ctx.tabs) ∧
      (rowValid tabTitles r → excl (rowUrl r) = false →
        ctx'.tabs = upsertTab ctx.tabs
          { url := rowUrl r,
            sessionId := (match getOrCreateSessionId ctx.db ctx.cache
              (jsOr r.session_name "Uncategorized") with
              | .ok (i, _, _) => i
              | .error _ => 0),
            title := jsOrStr ((lookupStr tabTitles (rowUrl r)).getD "") "Untitled",
            summary := r.summarized_content }) := by
  obtain ⟨id, db', cache', hgo, hdb', hrows⟩ :=
    getOrCreateSessionId_ok ctx.db ctx.cache (jsOr r.session_name "Uncategorized") hdb
  have hpr : processResult tabTitles excl ctx r =
      (if rowUrl r == "" || !hasKey tabTitles (rowUrl r) then
        .ok { db := db', cache := cache', tabs := ctx.tabs }
      else if excl (rowUrl r) then
        .ok { db := db', cache := cache', tabs := ctx.tabs }
      else
        .ok { db := db', cache := cache',
              tabs := upsertTab ctx.tabs
                { url := rowUrl r, sessionId := id,
                  title := jsOrStr ((lookupStr tabTitles (rowUrl r)).getD "") "Untitled",
                  summary := r.summarized_content } }) := by
    unfold processResult
    rw [hgo]
  by_cases hv : (rowUrl r == "" || !hasKey tabTitles (rowUrl r)) = true
  · rw [if_pos hv] at hpr
    refine ⟨_, hpr, hdb', hrows, fun _ => rfl, fun hval _ => ?_⟩
    exfalso
    obtain ⟨h1, h2⟩ := hval
    simp only [Bool.or_eq_true, beq_iff_eq, Bool.not_eq_true] at hv
    rcases hv with hv | hv
    · exact h1 hv
    · rw [h2] at hv
      simp at hv
  · rw [if_neg hv] at hpr
    by_cases hex : excl (rowUrl r) = true
    · rw [if_pos hex] at hpr
      refine ⟨_, hpr, hdb', hrows, fun _ => rfl, fun _ hnex => ?_⟩
      rw [hex] at hnex
      simp at hnex
    · rw [if_neg hex] at hpr
      refine ⟨_, hpr, hdb', hrows, fun hc => ?_, fun _ _ => by simp [hgo]⟩
      rcases hc with hc | hc
      · exfalso
        apply hc
        simp only [Bool.or_eq_true, beq_iff_eq, Bool.not_eq_true, not_or] at hv
        push_neg at hv
        exact ⟨hv.1, by simpa using hv.2⟩
      · rw [hc] at hex
        simp at hex

theorem mem_urlsFromAI {results : List AIResult} {titles : List (String × String)}
    {u : String} :
    u ∈ urlsFromAI results titles ↔
      (∃ r ∈ results, r.tab_id = some u) ∧ u ≠ "" ∧ hasKey titles u = true := by
  unfold urlsFromAI
  rw [List.mem_filterMap]
  constructor
  · rintro ⟨r, hr, hfr⟩
    rcases ht : r.tab_id with _ | v
    · rw [ht] at hfr
      simp at hfr
    · rw [ht] at hfr
      have hfr' : (if (v != "" && hasKey titles v) = true then some v else none) = some u := hfr
      by_cases hc : (v != "" && hasKey titles v) = true
      · rw [if_pos hc] at hfr'
        simp only [Option.some.injEq] at hfr'
        subst hfr'
        simp only [Bool.and_eq_true, bne_iff_ne, ne_eq] at hc
        exact ⟨⟨r, hr, ht⟩, hc.1, hc.2⟩
      · rw [if_neg hc] at hfr'
        simp at hfr'
  · rintro ⟨⟨r, hr, ht⟩, hne, hk⟩
    refine ⟨r, hr, ?_⟩
    rw [ht]
    simp [hne, hk]

theorem mem_reconcileDelete {urls : List String} {tabs : List Membership}
    {m : Membership} :
    m ∈ reconcileDelete urls tabs ↔ m ∈ tabs ∧ (m.url = "" ∨ m.url ∈ urls) := by
  simp [reconcileDelete, List.mem_filter]

theorem processResult_tabs_shape (tabTitles : List (String × String))
    (excl : String → Bool) (ctx : SaveCtx) (r : AIResult) (ctx1 : SaveCtx)
    (h : processResult tabTitles excl ctx r = .ok ctx1) :
    ctx1.tabs = ctx.tabs ∨ ∃ v, ctx1.tabs = upsertTab ctx.tabs v := by
  unfold processResult at h
  rcases hg : getOrCreateSessionId ctx.db ctx.cache (jsOr r.session_name "Uncategorized")
    with e | ⟨id, db', cache'⟩ <;> rw [hg] at h
  · simp at h
  · have h' : (if rowUrl r == "" || !hasKey tabTitles (rowUrl r) then
        (Except.ok ⟨db', cache', ctx.tabs⟩ : Except Unit SaveCtx)
      else if excl (rowUrl r) then
        (Except.ok ⟨db', cache', ctx.tabs⟩ : Except Unit SaveCtx)
      else
        (Except.ok ⟨db', cache', upsertTab ctx.tabs
          ⟨rowUrl r, id, jsOrStr ((lookupStr tabTitles (rowUrl r)).getD "") "Untitled",
            r.summarized_content⟩⟩ : Except Unit SaveCtx)) = .ok ctx1 := h
    split at h'
    · simp only [Except.ok.injEq] at h'
      left
      rw [← h']
    · split at h'
      · simp only [Except.ok.injEq] at h'
        left
        rw [← h']
      · simp only [Except.ok.injEq] at h'
        right
        exact ⟨_, by rw [← h']⟩

theorem saveLoop_preserves_presence (tabTitles : List (String × String))
    (excl : String → Bool) :
    ∀ (results : List AIResult) (ctx ctx' : SaveCtx) (u : String),
      saveLoop tabTitles excl ctx results = .ok ctx' →
      (∃ m ∈ ctx.tabs, m.url = u) → ∃ m ∈ ctx'.tabs, m.url = u := by
  intro results
  induction results with
  | nil =>
    intro ctx ctx' u h hp
    simp only [saveLoop, Except.ok.injEq] at h
    rw [← h]
    exact hp
  | cons r rest ih =>
    intro ctx ctx' u h hp
    rcases hpr : processResult tabTitles excl ctx r with e | ctx1
    · simp only [saveLoop, hpr] at h
      exact absurd h (by simp)
    · simp only [saveLoop, hpr] at h
      apply ih ctx1 ctx' u h
      rcases processResult_tabs_shape tabTitles excl ctx r ctx1 hpr with hs | ⟨v, hs⟩
      · rw [hs]
        exact hp
      · rw [hs]
        exact upsertTab_presence ctx.tabs v u hp

theorem saveLoop_spec (tabTitles : List (String × String)) (excl : String → Bool) :
    ∀ (results : List AIResult) (ctx : SaveCtx), SessPos ctx.db →
    ∃ ctx', saveLoop tabTitles excl ctx results = .ok ctx' ∧ SessPos ctx'.db ∧
      (∀ m ∈ ctx'.tabs, m ∈ ctx.tabs ∨
        (m.url ∈ urlsFromAI results tabTitles ∧ excl m.url = false)) ∧
      (∀ u, u ∈ urlsFromAI results tabTitles → excl u = false →
        ∃ m ∈ ctx'.tabs, m.url = u) := by
  intro results
  induction results with
  | nil =>
    intro ctx h
    refine ⟨ctx, rfl, h, fun m hm => Or.inl hm, fun u hu => ?_⟩
    simp [urlsFromAI] at hu
  | cons r rest ih =>
    intro ctx hdb
    obtain ⟨ctx1, hpr, hdb1, hrows, hskip, hupsert⟩ := processResult_spec tabTitles excl ctx r hdb
    obtain ⟨ctx', hloop, hdb', hclosure, hpres⟩ := ih ctx1 hdb1
    refine ⟨ctx', by simp only [saveLoop, hpr]; exact hloop, hdb', ?_, ?_⟩
    · intro m hm
      rcases hclosure m hm with hmem | ⟨hu, hex⟩
      · by_cases hval : rowValid tabTitles r
        · by_cases hex2 : excl (rowUrl r) = true
          · rw [hskip (Or.inr hex2)] at hmem
            exact Or.inl hmem
          · have h5 := hupsert hval (by simpa using hex2)
            rw [h5] at hmem
            rcases mem_upsertTab _ _ _ hmem with h6 | h6
            · exact Or.inl h6
            · right
              obtain ⟨hvne, hvk⟩ := hval
              have hmu : m.url = rowUrl r := by rw [h6]
              have htid : r.tab_id = some (rowUrl r) := by
                rcases ht : r.tab_id with _ | v
                · exfalso
                  apply hvne
                  simp [rowUrl, ht]
                · simp [rowUrl, ht]
              rw [hmu]
              refine ⟨mem_urlsFromAI.mpr ⟨⟨r, List.mem_cons_self r rest, htid⟩, hvne, hvk⟩, ?_⟩
              simpa using hex2
        · rw [hskip (Or.inl hval)] at hmem
          exact Or.inl hmem
      · refine Or.inr ⟨?_, hex⟩
        rcases mem_urlsFromAI.mp hu with ⟨⟨r', hr', ht'⟩, hne, hk⟩
        exact mem_urlsFromAI.mpr ⟨⟨r', List.mem_cons_of_mem r hr', ht'⟩, hne, hk⟩
    · intro u hu hex
      rcases mem_urlsFromAI.mp hu with ⟨⟨r', hr', ht'⟩, hne, hk⟩
      rcases List.mem_cons.mp hr' with heq | hr'rest
      · subst heq
        have hvu : rowUrl r' = u := by simp [rowUrl, ht']
        have hval : rowValid tabTitles r' := ⟨by rw [hvu]; exact hne, by rw [hvu]; exact hk⟩
        have h5 := hupsert hval (by rw [hvu]; exact hex)
        apply saveLoop_preserves_presence tabTitles excl rest ctx1 ctx' u hloop
        rw [h5]
        obtain ⟨m, hm, hmu⟩ := upsertTab_self ctx.tabs
          { url := rowUrl r', sessionId := _,
            title := jsOrStr ((lookupStr tabTitles (rowUrl r')).getD "") "Untitled",
            summary := r'.summarized_content }
        exact ⟨m, hm, by rw [hmu, hvu]⟩
      · exact hpres u (mem_urlsFromAI.mpr ⟨⟨r', hr'rest, ht'⟩, hne, hk⟩) hex

theorem saveAISummaries_spec (results : List AIResult)
    (titles : List (String × String)) (excl : String → Bool) (st : DBState)
    (hdb : SessPos st.sessions) :
    ∃ st', saveAISummaries results titles excl st = .ok st' ∧
      (∀ m ∈ st'.tabs,
        (m ∈ st.tabs ∧ (m.url = "" ∨ m.url ∈ urlsFromAI results titles)) ∨
        (m.url ∈ urlsFromAI results titles ∧ excl m.url = false)) ∧
      (∀ u, u ∈ urlsFromAI results titles → excl u = false →
        ∃ m ∈ st'.tabs, m.url = u) := by
  obtain ⟨ctx', hloop, _, hclosure, hpres⟩ := saveLoop_spec titles excl results
    { db := st.sessions, cache := loadSessionsCache st.sessions,
      tabs := reconcileDelete (urlsFromAI results titles) st.tabs } hdb
  refine ⟨_, by unfold saveAISummaries; rw [hloop], ?_, ?_⟩
  · intro m hm
    rcases hclosure m hm with hmem | hP
    · left
      exact mem_reconcileDelete.mp hmem
    · exact Or.inr hP
  · exact hpres

theorem foldl_closure {β α : Type} (P : α → Prop) :
    ∀ (l : List β) (f : α → β → α),
      (∀ acc x, x ∈ l → P acc → P (f acc x)) →
      ∀ acc, P acc → P (l.foldl f acc) := by
  intro l
  induction l with
  | nil => intro f _ acc hacc; simpa using hacc
  | cons x rest ih =>
    intro f hf acc hacc
    simp only [List.foldl_cons]
    exact ih f (fun a y hy ha => hf a y (List.mem_cons_of_mem _ hy) ha) (f acc x)
      (hf acc x (List.mem_cons_self _ _) hacc)

theorem mem_mapSet {α : Type} {m : List (String × α)} {k : String} {v : α}
    {p : String × α} (h : p ∈ mapSet m k v) : p ∈ m ∨ p = (k, v) := by
  unfold mapSet at h
  split at h
  · rcases List.mem_map.mp h with ⟨q, hq, hqe⟩
    by_cases hqk : (q.1 == k) = true
    · rw [if_pos hqk] at hqe
      exact Or.inr hqe.symm
    · rw [if_neg hqk] at hqe
      exact Or.inl (hqe ▸ hq)
  · rcases List.mem_append.mp h with h | h
    · exact Or.inl h
    · exact Or.inr (List.mem_singleton.mp h)

theorem mapSet_of_not_mem {α : Type} (m : List (String × α)) (k : String) (v : α)
    (h : m.any (fun p => p.1 == k) = false) : mapSet m k v = m ++ [(k, v)] := by
  unfold mapSet
  rw [if_neg (by simp [h])]

theorem filter_url_eq (h : Tab) :
    ∀ hist : List Tab, (hist.map Tab.url).Nodup → h ∈ hist →
      hist.filter (fun t => t.url == h.url) = [h] := by
  intro hist
  induction hist with
  | nil => intro _ hh; simp at hh
  | cons t rest ih =>
    intro hnd hh
    simp only [List.map_cons, List.nodup_cons] at hnd
    rcases List.mem_cons.mp hh with heq | hmem
    · subst heq
      simp only [List.filter_cons, beq_self_eq_true, if_pos]
      congr 1
      apply List.filter_eq_nil.mpr
      intro s hs
      simp only [beq_iff_eq, ne_eq]
      intro hc
      exact hnd.1 (hc ▸ List.mem_map_of_mem Tab.url hs)
    · have hne : (t.url == h.url) = false := by
        simp only [beq_eq_false_iff_ne, ne_eq]
        intro hc
        exact hnd.1 (hc ▸ List.mem_map_of_mem Tab.url hmem)
      simp only [List.filter_cons, hne]
      simpa using ih hnd.2 hmem

theorem mergeHist_go (hist : List Tab) :
    ∀ (l : List Tab) (acc : List (String × Tab)),
      (∀ t ∈ l, t.url ≠ "") → (l.map Tab.url).Nodup →
      (∀ t ∈ l, acc.any (fun p => p.1 == t.url) = false) →
      l.foldl (fun m t => if t.url == "" then m else mapSet m t.url t) acc
        = acc ++ l.map (fun t => (t.url, t)) := by
  intro l
  induction l with
  | nil => intro acc _ _ _; simp
  | cons t rest ih =>
    intro acc hne hnd hfresh
    simp only [List.map_cons, List.nodup_cons] at hnd
    simp only [List.foldl_cons, List.map_cons]
    rw [if_neg (by simpa using hne t (List.mem_cons_self t rest))]
    rw [mapSet_of_not_mem _ _ _ (hfresh t (List.mem_cons_self t rest))]
    rw [ih (acc ++ [(t.url, t)]) (fun s hs => hne s (List.mem_cons_of_mem t hs)) hnd.2 ?_]
    · simp
    · intro s hs
      rw [List.any_append]
      have h1 := hfresh s (List.mem_cons_of_mem t hs)
      have h2 : ((t.url, t).1 == s.url) = false := by
        simp only [beq_eq_false_iff_ne, ne_eq]
        intro hc
        exact hnd.1 (hc ▸ List.mem_map_of_mem Tab.url hs)
      simp [h1, h2]

theorem mergeHist_eq (hist : List Tab) (hne : ∀ t ∈ hist, t.url ≠ "")
    (hnd : (hist.map Tab.url).Nodup) :
    mergeHist hist = hist.map (fun t => (t.url, t)) := by
  have := mergeHist_go hist hist [] hne hnd (by simp)
  simpa [mergeHist] using this

/-- All entries of the merged map carry their own URL as key and originate
from the historical or the current list. -/
theorem mergeByUrl_entries (hist cur : List Tab) :
    ∀ p ∈ (mergeByUrl hist cur).byUrl,
      p.1 = p.2.url ∧ (p.2 ∈ hist ∨ p.2 ∈ cur) := by
  have hh : ∀ p ∈ mergeHist hist, p.1 = p.2.url ∧ (p.2 ∈ hist ∨ p.2 ∈ cur) := by
    unfold mergeHist
    refine foldl_closure
      (fun (m : List (String × Tab)) => ∀ p ∈ m, p.1 = p.2.url ∧ (p.2 ∈ hist ∨ p.2 ∈ cur))
      hist _ ?_ [] (by simp)
    intro acc t ht hacc p hp
    split at hp
    · exact hacc p hp
    · rcases mem_mapSet hp with h | h
      · exact hacc p h
      · rw [h]
        exact ⟨rfl, Or.inl ht⟩
  unfold mergeByUrl mergeCurrent
  refine foldl_closure
    (fun (st : MergeSt) => ∀ p ∈ st.byUrl, p.1 = p.2.url ∧ (p.2 ∈ hist ∨ p.2 ∈ cur))
    cur _ ?_ _ hh
  intro st t ht hst p hp
  split at hp
  · exact hst p hp
  · split at hp
    · exact hst p hp
    · rcases mem_mapSet hp with h | h
      · exact hst p h
      · rw [h]
        exact ⟨rfl, Or.inr ht⟩

/-- The merge's second pass never touches an entry whose key is already
present: a colliding current tab is skipped, and the filtered view of any
present key is unchanged. -/
theorem mergeCurrent_filter_keep (k : String) :
    ∀ (cur : List Tab) (st : MergeSt), st.byUrl.any (fun p => p.1 == k) = true →
      (mergeCurrent st cur).byUrl.filter (fun p => p.1 == k) =
        st.byUrl.filter (fun p => p.1 == k) := by
  intro cur
  induction cur with
  | nil => intro st _; rfl
  | cons t rest ih =>
    intro st hk
    have hstep : mergeCurrent st (t :: rest) = mergeCurrent
        (if t.url == "" then st
         else if st.byUrl.any (fun p => p.1 == t.url) then
           { st with skipped := st.skipped + 1 }
         else { st with byUrl := mapSet st.byUrl t.url t }) rest := rfl
    rw [hstep]
    by_cases h0 : (t.url == "") = true
    · rw [if_pos h0]
      exact ih st hk
    · rw [if_neg h0]
      by_cases h1 : st.byUrl.any (fun p => p.1 == t.url) = true
      · rw [if_pos h1]
        exact ih _ hk
      · rw [if_neg h1]
        have htk : (t.url == k) = false := by
          by_contra hc
          simp only [Bool.not_eq_false, beq_iff_eq] at hc
          rw [hc] at h1
          exact h1 hk
        have happ := mapSet_of_not_mem st.byUrl t.url t (Bool.eq_false_iff.mpr h1)
        rw [ih _ (by rw [happ, List.any_append]; simp [hk])]
        rw [happ, List.filter_append]
        simp [htk]

/-- The skip counter of the second merge pass counts exactly the current
tabs with a truthy URL whose membership test `K` holds at their turn,
provided current URLs are distinct and presence agrees with `K`. -/
theorem mergeCurrent_skipped (K : String → Bool) :
    ∀ (cur : List Tab) (st : MergeSt), (cur.map Tab.url).Nodup →
      (∀ c ∈ cur, c.url ≠ "" → st.byUrl.any (fun p => p.1 == c.url) = K c.url) →
      (mergeCurrent st cur).skipped =
        st.skipped + (cur.filter (fun c => c.url != "" && K c.url)).length := by
  intro cur
  induction cur with
  | nil => intro st _ _; simp [mergeCurrent]
  | cons t rest ih =>
    intro st hnd hkey
    simp only [List.map_cons, List.nodup_cons] at hnd
    have hstep : mergeCurrent st (t :: rest) = mergeCurrent
        (if t.url == "" then st
         else if st.byUrl.any (fun p => p.1 == t.url) then
           { st with skipped := st.skipped + 1 }
         else { st with byUrl := mapSet st.byUrl t.url t }) rest := rfl
    rw [hstep]
    by_cases h0 : (t.url == "") = true
    · rw [if_pos h0]
      have hfil : (t.url != "" && K t.url) = false := by
        simp only [bne, h0]
        simp
      simp only [List.filter_cons, hfil, Bool.false_eq_true, if_neg, not_false_iff]
      exact ih st hnd.2 (fun c hc hcne => hkey c (List.mem_cons_of_mem t hc) hcne)
    · rw [if_neg h0]
      have hne : t.url ≠ "" := by simpa using h0
      have hkt := hkey t (List.mem_cons_self t rest) hne
      by_cases h1 : st.byUrl.any (fun p => p.1 == t.url) = true
      · rw [if_pos h1]
        have hKt : K t.url = true := by rw [← hkt]; exact h1
        have hfil : (t.url != "" && K t.url) = true := by
          simp [bne, h0, hKt]
        rw [ih { byUrl := st.byUrl, skipped := st.skipped + 1 } hnd.2
          (fun c hc hcne => hkey c (List.mem_cons_of_mem t hc) hcne)]
        simp [List.filter_cons, hfil]
        omega
      · rw [if_neg h1]
        have hKt : K t.url = false := by rw [← hkt]; exact Bool.eq_false_iff.mpr h1
        have hfil : (t.url != "" && K t.url) = false := by simp [hKt]
        have happ := mapSet_of_not_mem st.byUrl t.url t (Bool.eq_false_iff.mpr h1)
        rw [ih { byUrl := mapSet st.byUrl t.url t, skipped := st.skipped } hnd.2 ?_]
        · simp [List.filter_cons, hfil]
        · intro c hc hcne
          have htc : ((t.url, t).1 == c.url) = false := by
            simp only [beq_eq_false_iff_ne, ne_eq]
            intro hcontra
            exact hnd.1 (hcontra ▸ List.mem_map_of_mem Tab.url hc)
          show (mapSet st.byUrl t.url t).any (fun p => p.1 == c.url) = K c.url
          rw [happ, List.any_append]
          simp only [List.any_cons, List.any_nil, htc, Bool.or_false, Bool.false_or]
          exact hkey c (List.mem_cons_of_mem t hc) hcne

theorem hasKey_exists {α : Type} {m : List (String × α)} {k : String}
    (h : hasKey m k = true) : ∃ p ∈ m, p.1 = k := by
  unfold hasKey lookupStr at h
  rcases hf : m.find? (fun p => p.1 == k) with _ | p
  · rw [hf] at h
    simp at h
  · have hp := List.find?_some hf
    exact ⟨p, List.mem_of_find?_eq_some hf, by simpa using hp⟩

theorem validTabs_not_excluded_of_resp (excl : String → Bool) (allTabs : List RawTab)
    (hresp : ∀ t ∈ injectableTabs excl allTabs, ∀ r, t.fetch = some r →
      excl r.url = false) :
    ∀ t ∈ validTabs excl allTabs, excl t.url = false := by
  intro t ht
  unfold validTabs at ht
  rcases List.mem_filterMap.mp ht with ⟨rt, hrt, hmap⟩
  rcases hf : rt.fetch with _ | r
  · rw [hf] at hmap
    cases hmap
  · rw [hf] at hmap
    have hmap2 : (if r.url == "" then (none : Option Tab)
        else some ⟨r.title, r.url, r.content, "current", none, none⟩) = some t := hmap
    by_cases hu : (r.url == "") = true
    · rw [if_pos hu] at hmap2
      cases hmap2
    · rw [if_neg hu] at hmap2
      cases hmap2
      exact hresp rt hrt r hf

theorem filteredHistory_not_excluded (excl : String → Bool) (histRaw : List Tab) :
    ∀ t ∈ filteredHistory excl histRaw, excl t.url = false := by
  intro t ht
  unfold filteredHistory at ht
  have := (List.mem_filter.mp ht).2
  simpa using this

theorem summarizedCurrentTabs_urls (hist cur : List Tab)
    (batch : List (String × String)) :
    ∀ t' ∈ summarizedCurrentTabs hist cur batch, ∃ t ∈ cur, t'.url = t.url := by
  intro t' ht'
  unfold summarizedCurrentTabs at ht'
  rcases List.mem_map.mp ht' with ⟨t, ht, hmap⟩
  refine ⟨t, ht, ?_⟩
  rw [← hmap]
  split
  · rfl
  · split
    · rfl
    · split
      · split <;> rfl
      · rfl

theorem combinedTabs_not_excluded (excl : String → Bool) (hist cur : List Tab)
    (hh : ∀ t ∈ hist, excl t.url = false) (hc : ∀ t ∈ cur, excl t.url = false) :
    ∀ t ∈ combinedTabs hist cur, excl t.url = false := by
  intro t ht
  unfold combinedTabs at ht
  rcases List.mem_map.mp ht with ⟨p, hp, hsnd⟩
  rcases (mergeByUrl_entries hist cur p hp).2 with h | h
  · rw [← hsnd]
    exact hh _ h
  · rw [← hsnd]
    exact hc _ h

theorem bestTitleByUrl_keys (excl : String → Bool) (hist cur combined : List Tab)
    (hh : ∀ t ∈ hist, excl t.url = false) (hc : ∀ t ∈ cur, excl t.url = false)
    (hm : ∀ t ∈ combined, excl t.url = false) :
    ∀ p ∈ bestTitleByUrl hist cur combined, excl p.1 = false := by
  unfold bestTitleByUrl ensureCombinedTitles overlayCurrentTitles seedHistTitles
  refine foldl_closure (fun (m : List (String × String)) => ∀ p ∈ m, excl p.1 = false)
    combined _ ?_ _ ?_
  · intro acc t ht hacc p hp
    split at hp
    · exact hacc p hp
    · split at hp
      · exact hacc p hp
      · rcases mem_mapSet hp with h | h
        · exact hacc p h
        · rw [h]
          exact hm t ht
  · refine foldl_closure (fun (m : List (String × String)) => ∀ p ∈ m, excl p.1 = false)
      cur _ ?_ _ ?_
    · intro acc t ht hacc p hp
      split at hp
      · exact hacc p hp
      · split at hp
        · rcases mem_mapSet hp with h | h
          · exact hacc p h
          · rw [h]
            exact hc t ht
        · split at hp
          · split at hp
            · rcases mem_mapSet hp with h | h
              · exact hacc p h
              · rw [h]
                exact hc t ht
            · exact hacc p hp
          · rcases mem_mapSet hp with h | h
            · exact hacc p h
            · rw [h]
              exact hc t ht
    · refine foldl_closure (fun (m : List (String × String)) => ∀ p ∈ m, excl p.1 = false)
        hist _ ?_ _ ?_
      · intro acc t ht hacc p hp
        split at hp
        · exact hacc p hp
        · split at hp
          · rcases mem_mapSet hp with h | h
            · exact hacc p h
            · rw [h]
              exact hh t ht
          · split at hp
            · exact hacc p hp
            · rcases mem_mapSet hp with h | h
              · exact hacc p h
              · rw [h]
                exact hh t ht
      · simp

theorem mergeHist_any_key (hist : List Tab) (hne : ∀ t ∈ hist, t.url ≠ "")
    (hnd : (hist.map Tab.url).Nodup) (u : String) :
    (mergeHist hist).any (fun p => p.1 == u) = hist.any (fun t => t.url == u) := by
  rw [mergeHist_eq hist hne hnd]
  clear hne hnd
  induction hist with
  | nil => rfl
  | cons a l ih => simp only [List.map_cons, List.any_cons, ih]

theorem combinedTabs_filter_hist (hist cur : List Tab) (h : Tab)
    (hne : ∀ t ∈ hist, t.url ≠ "") (hnd : (hist.map Tab.url).Nodup) (hh : h ∈ hist) :
    (combinedTabs hist cur).filter (fun t => t.url == h.url) = [h] := by
  unfold combinedTabs
  rw [List.filter_map]
  have hcongr : (mergeByUrl hist cur).byUrl.filter
      ((fun t => t.url == h.url) ∘ (fun (p : String × Tab) => p.2)) =
      (mergeByUrl hist cur).byUrl.filter (fun p => p.1 == h.url) := by
    apply List.filter_congr
    intro p hp
    have := (mergeByUrl_entries hist cur p hp).1
    simp only [Function.comp_apply]
    rw [this]
  rw [hcongr]
  have hk : (mergeHist hist).any (fun p => p.1 == h.url) = true := by
    rw [mergeHist_any_key hist hne hnd]
    exact List.any_eq_true.mpr ⟨h, hh, by simp⟩
  have hkeep := mergeCurrent_filter_keep h.url cur
    { byUrl := mergeHist hist, skipped := 0 } hk
  have hbase : (mergeHist hist).filter (fun p => p.1 == h.url) = [(h.url, h)] := by
    rw [mergeHist_eq hist hne hnd, List.filter_map]
    have : hist.filter ((fun (p : String × Tab) => p.1 == h.url) ∘ (fun t => (t.url, t)))
        = hist.filter (fun t => t.url == h.url) := by
      apply List.filter_congr
      intro t _
      rfl
    rw [this, filter_url_eq h hist hnd hh]
    rfl
  show ((mergeCurrent { byUrl := mergeHist hist, skipped := 0 } cur).byUrl.filter
    (fun p => p.1 == h.url)).map (fun p => p.2) = [h]
  rw [hkeep]
  show ((mergeHist hist).filter (fun p => p.1 == h.url)).map (fun p => p.2) = [h]
  rw [hbase]
  rfl

theorem any_mapSet_mono {α : Type} (m : List (String × α)) (k u : String) (v : α)
    (h : m.any (fun p => p.1 == u) = true) :
    (mapSet m k v).any (fun p => p.1 == u) = true := by
  unfold mapSet
  split
  · rcases List.any_eq_true.mp h with ⟨p, hp, hpu⟩
    apply List.any_eq_true.mpr
    by_cases hk : (p.1 == k) = true
    · refine ⟨(k, v), List.mem_map.mpr ⟨p, hp, by rw [if_pos hk]⟩, ?_⟩
      have hpk : p.1 = k := eq_of_beq hk
      show (k == u) = true
      rw [← hpk]
      exact hpu
    · exact ⟨p, List.mem_map.mpr ⟨p, hp, by rw [if_neg hk]⟩, hpu⟩
  · apply List.any_eq_true.mpr
    rcases List.any_eq_true.mp h with ⟨p, hp, hpu⟩
    exact ⟨p, List.mem_append_left _ hp, hpu⟩

theorem mergeCurrent_skipped_ge (K : String → Bool) :
    ∀ (cur : List Tab) (st : MergeSt),
      (∀ c ∈ cur, c.url ≠ "" → K c.url = true →
        st.byUrl.any (fun p => p.1 == c.url) = true) →
      st.skipped + (cur.filter (fun c => c.url != "" && K c.url)).length ≤
        (mergeCurrent st cur).skipped := by
  intro cur
  induction cur with
  | nil => intro st _; simp [mergeCurrent]
  | cons t rest ih =>
    intro st hkey
    have hstep : mergeCurrent st (t :: rest) = mergeCurrent
        (if t.url == "" then st
         else if st.byUrl.any (fun p => p.1 == t.url) then
           { st with skipped := st.skipped + 1 }
         else { st with byUrl := mapSet st.byUrl t.url t }) rest := rfl
    rw [hstep]
    by_cases h0 : (t.url == "") = true
    · rw [if_pos h0]
      have hfil : (t.url != "" && K t.url) = false := by
        simp only [bne, h0]
        simp
      simp only [List.filter_cons, hfil, Bool.false_eq_true, if_neg, not_false_iff]
      exact ih st (fun c hc => hkey c (List.mem_cons_of_mem t hc))
    · rw [if_neg h0]
      have hne : t.url ≠ "" := by simpa using h0
      by_cases h1 : st.byUrl.any (fun p => p.1 == t.url) = true
      · rw [if_pos h1]
        have hrec := ih { byUrl := st.byUrl, skipped := st.skipped + 1 }
          (fun c hc => hkey c (List.mem_cons_of_mem t hc))
        have h2 : st.skipped + 1 +
            (rest.filter (fun c => c.url != "" && K c.url)).length ≤
            (mergeCurrent { byUrl := st.byUrl, skipped := st.skipped + 1 } rest).skipped :=
          hrec
        by_cases hKt : (t.url != "" && K t.url) = true
        · simp only [List.filter_cons, hKt, if_pos, List.length_cons]
          omega
        · have hKt2 : (t.url != "" && K t.url) = false := Bool.eq_false_iff.mpr hKt
          simp only [List.filter_cons, hKt2, Bool.false_eq_true, if_neg, not_false_iff]
          omega
      · rw [if_neg h1]
        have hKt : K t.url = false := by
          by_cases hK : K t.url = true
          · exact absurd (hkey t (List.mem_cons_self t rest) hne hK) h1
          · exact Bool.eq_false_iff.mpr hK
        have hfil : (t.url != "" && K t.url) = false := by simp [hKt]
        simp only [List.filter_cons, hfil, Bool.false_eq_true, if_neg, not_false_iff]
        exact ih { byUrl := mapSet st.byUrl t.url t, skipped := st.skipped }
          (fun c hc hcne hKc => any_mapSet_mono st.byUrl t.url c.url t
            (hkey c (List.mem_cons_of_mem t hc) hcne hKc))

/-- C4 amended: when the historical URLs are non-empty and pairwise
distinct, every historical entry whose URL also occurs among the freshly
collected tabs appears in the merged working set exactly once, and the
single entry kept for that URL is the historical one (its stored body,
not the fresh body).  The skip counter reports AT LEAST the number of
fresh documents with a truthy URL already claimed by history, and exactly
that number only when the fresh URLs are themselves pairwise distinct:
the same counter also advances when a fresh document repeats the URL of
an earlier fresh document (see the counterexample), so in general it
overcounts history-caused skips. -/
theorem merge_history_shadows (hist cur : List Tab) (h : Tab)
    (hne : ∀ t ∈ hist, t.url ≠ "") (hnd : (hist.map Tab.url).Nodup)
    (hh : h ∈ hist) :
    (combinedTabs hist cur).filter (fun t => t.url == h.url) = [h] ∧
    (cur.filter (fun c => c.url != "" && hist.any (fun t => t.url == c.url))).length ≤
      (mergeByUrl hist cur).skipped ∧
    ((cur.map Tab.url).Nodup →
      (mergeByUrl hist cur).skipped =
        (cur.filter (fun c => c.url != "" && hist.any (fun t => t.url == c.url))).length) := by
  refine ⟨combinedTabs_filter_hist hist cur h hne hnd hh, ?_, ?_⟩
  · have hge := mergeCurrent_skipped_ge (fun u => hist.any (fun t => t.url == u)) cur
      { byUrl := mergeHist hist, skipped := 0 }
      (fun c _ _ hK => by
        show (mergeHist hist).any (fun p => p.1 == c.url) = true
        rw [mergeHist_any_key hist hne hnd]
        exact hK)
    simpa [mergeByUrl] using hge
  · intro hndc
    have heq := mergeCurrent_skipped (fun u => hist.any (fun t => t.url == u)) cur
      { byUrl := mergeHist hist, skipped := 0 } hndc
      (fun c _ _ => mergeHist_any_key hist hne hnd c.url)
    simpa [mergeByUrl] using heq

/-- C4 amended witness: one historical tab and two fresh tabs, one of
which shares the URL `http://x` with history; the merged set keeps
exactly the historical entry, and the skip count both bounds and (the
fresh URLs being distinct) equals the one history-caused skip. -/
theorem merge_history_shadows_witness :
    (⟨"H", "http://x", "old", "history", none, none⟩ : Tab) ∈
      ([⟨"H", "http://x", "old", "history", none, none⟩] : List Tab) ∧
    (combinedTabs [⟨"H", "http://x", "old", "history", none, none⟩]
        [⟨"F", "http://x", "new", "current", none, none⟩,
         ⟨"G", "http://y", "g", "current", none, none⟩]).filter
      (fun t => t.url == "http://x") =
      [⟨"H", "http://x", "old", "history", none, none⟩] ∧
    (([⟨"F", "http://x", "new", "current", none, none⟩,
       ⟨"G", "http://y", "g", "current", none, none⟩] : List Tab).filter
        (fun c => c.url != "" &&
          ([⟨"H", "http://x", "old", "history", none, none⟩] : List Tab).any
            (fun t => t.url == c.url))).length ≤
      (mergeByUrl [⟨"H", "http://x", "old", "history", none, none⟩]
        [⟨"F", "http://x", "new", "current", none, none⟩,
         ⟨"G", "http://y", "g", "current", none, none⟩]).skipped ∧
    (mergeByUrl [⟨"H", "http://x", "old", "history", none, none⟩]
        [⟨"F", "http://x", "new", "current", none, none⟩,
         ⟨"G", "http://y", "g", "current", none, none⟩]).skipped =
      (([⟨"F", "http://x", "new", "current", none, none⟩,
         ⟨"G", "http://y", "g", "current", none, none⟩] : List Tab).filter
        (fun c => c.url != "" &&
          ([⟨"H", "http://x", "old", "history", none, none⟩] : List Tab).any
            (fun t => t.url == c.url))).length := by
  have hm := merge_history_shadows
    [⟨"H", "http://x", "old", "history", none, none⟩]
    [⟨"F", "http://x", "new", "current", none, none⟩,
     ⟨"G", "http://y", "g", "current", none, none⟩]
    ⟨"H", "http://x", "old", "history", none, none⟩
    (by decide) (by decide) (by decide)
  exact ⟨by decide, hm.1, hm.2.1, hm.2.2 (by decide)⟩

/-- C4 counterexample: the skip counter is NOT the number of fresh
documents shadowed by history.  Two fresh tabs share the URL `http://y`
(absent from history) and a third collides with the historical
`http://x`: the counter reports 2 — it also counted the fresh–fresh
duplicate — while exactly 1 fresh document was skipped in favor of a
historical entry. -/
theorem merge_skipped_overcount :
    (mergeByUrl [⟨"H", "http://x", "old", "history", none, none⟩]
        [⟨"A", "http://y", "a", "current", none, none⟩,
         ⟨"B", "http://y", "b", "current", none, none⟩,
         ⟨"C", "http://x", "c", "current", none, none⟩]).skipped = 2 ∧
    (([⟨"A", "http://y", "a", "current", none, none⟩,
       ⟨"B", "http://y", "b", "current", none, none⟩,
       ⟨"C", "http://x", "c", "current", none, none⟩] : List Tab).filter
        (fun c => c.url != "" &&
          ([⟨"H", "http://x", "old", "history", none, none⟩] : List Tab).any
            (fun t => t.url == c.url))).length = 1 ∧
    ¬((mergeByUrl [⟨"H", "http://x", "old", "history", none, none⟩]
        [⟨"A", "http://y", "a", "current", none, none⟩,
         ⟨"B", "http://y", "b", "current", none, none⟩,
         ⟨"C", "http://x", "c", "current", none, none⟩]).skipped =
      (([⟨"A", "http://y", "a", "current", none, none⟩,
         ⟨"B", "http://y", "b", "current", none, none⟩,
         ⟨"C", "http://x", "c", "current", none, none⟩] : List Tab).filter
        (fun c => c.url != "" &&
          ([⟨"H", "http://x", "old", "history", none, none⟩] : List Tab).any
            (fun t => t.url == c.url))).length) := by
  refine ⟨by decide, by decide, by decide⟩

/-- C9 amended: exclusion is an invariant of every run in which the
content scripts answer with non-excluded URLs (the recorded identity of a
collected document is the live `response.url`, which the code never
re-checks — see the counterexample for a mid-collection navigation to an
excluded host).  Under that condition, and given that the browser's URL
parser rejects the empty string (`host "" = ""`): (i) no excluded URL
enters the merged working set — fresh and historical inputs are both
filtered; (ii) every key of the offered title lookup is non-excluded; and
(iii) `saveAISummaries` succeeds and no persisted Membership is excluded
after the run, with NO assumption on the prior catalog: a previously
persisted excluded row cannot be in the reconciliation set (excluded URLs
are never offered), so it is deleted, and excluded result rows are never
upserted. -/
theorem exclusion_invariant (host : String → String) (rules : List String)
    (allTabs : List RawTab) (histRaw : List Tab) (batch : List (String × String))
    (aiResults : List AIResult) (st : DBState)
    (hdb : SessPos st.sessions)
    (hempty : host "" = "")
    (hresp : ∀ t ∈ injectableTabs (isUrlExcluded host rules) allTabs, ∀ r,
      t.fetch = some r → isUrlExcluded host rules r.url = false) :
    (∀ t ∈ pipelineCombined (isUrlExcluded host rules) allTabs histRaw batch,
      isUrlExcluded host rules t.url = false) ∧
    (∀ p ∈ pipelineTitles (isUrlExcluded host rules) allTabs histRaw batch,
      isUrlExcluded host rules p.1 = false) ∧
    (∃ st', saveAISummaries aiResults
        (pipelineTitles (isUrlExcluded host rules) allTabs histRaw batch)
        (isUrlExcluded host rules) st = .ok st' ∧
      ∀ m ∈ st'.tabs, isUrlExcluded host rules m.url = false) := by
  have hhist : ∀ t ∈ pipelineHistory (isUrlExcluded host rules) histRaw,
      isUrlExcluded host rules t.url = false :=
    filteredHistory_not_excluded _ histRaw
  have hvalid : ∀ t ∈ validTabs (isUrlExcluded host rules) allTabs,
      isUrlExcluded host rules t.url = false :=
    validTabs_not_excluded_of_resp _ allTabs hresp
  have hcur : ∀ t ∈ pipelineCurrent (isUrlExcluded host rules) allTabs histRaw batch,
      isUrlExcluded host rules t.url = false := by
    intro t ht
    rcases summarizedCurrentTabs_urls _ _ batch t ht with ⟨t0, ht0, hu⟩
    rw [hu]
    exact hvalid t0 ht0
  have hcomb : ∀ t ∈ pipelineCombined (isUrlExcluded host rules) allTabs histRaw batch,
      isUrlExcluded host rules t.url = false :=
    combinedTabs_not_excluded _ _ _ hhist hcur
  have htit : ∀ p ∈ pipelineTitles (isUrlExcluded host rules) allTabs histRaw batch,
      isUrlExcluded host rules p.1 = false :=
    bestTitleByUrl_keys _ _ _ _ hhist hvalid hcomb
  refine ⟨hcomb, htit, ?_⟩
  obtain ⟨st', hok, hclosure, _⟩ := saveAISummaries_spec aiResults
    (pipelineTitles (isUrlExcluded host rules) allTabs histRaw batch)
    (isUrlExcluded host rules) st hdb
  refine ⟨st', hok, ?_⟩
  intro m hm
  rcases hclosure m hm with ⟨_, hor⟩ | ⟨_, hexcl⟩
  · rcases hor with hnull | hin
    · rw [hnull]
      unfold isUrlExcluded
      rw [hempty]
      simp
    · obtain ⟨p, hp, hpk⟩ := hasKey_exists (mem_urlsFromAI.mp hin).2.2
      rw [← hpk]
      exact htit p hp
  · exact hexcl

/-- C9 witness: the concrete exclusion run satisfies the hypotheses —
every content-script response reports a non-excluded URL — and the
invariant then holds on it, including over a prior catalog row. -/
theorem exclusion_invariant_witness :
    SessPos wSt.sessions ∧
    wHost "" = "" ∧
    (∀ t ∈ injectableTabs (isUrlExcluded wHost wRules) wAllTabs, ∀ r,
      t.fetch = some r → isUrlExcluded wHost wRules r.url = false) ∧
    ((∀ t ∈ pipelineCombined (isUrlExcluded wHost wRules) wAllTabs wHist [],
        isUrlExcluded wHost wRules t.url = false) ∧
      (∀ p ∈ pipelineTitles (isUrlExcluded wHost wRules) wAllTabs wHist [],
        isUrlExcluded wHost wRules p.1 = false) ∧
      (∃ st', saveAISummaries wAI
          (pipelineTitles (isUrlExcluded wHost wRules) wAllTabs wHist [])
          (isUrlExcluded wHost wRules) wSt = .ok st' ∧
        ∀ m ∈ st'.tabs, isUrlExcluded wHost wRules m.url = false)) :=
  ⟨by unfold SessPos; decide, by decide, by decide,
    exclusion_invariant wHost wRules wAllTabs wHist [] wAI wSt
      (by unfold SessPos; decide) (by decide) (by decide)⟩

/-- C9 counterexample: the exclusion filter runs on query-time URLs only,
but the recorded identity of a collected document is the content script's
live `response.url`.  A tab whose query-time URL is allowed but whose
content script answers from an excluded host puts the excluded URL into
the merged working set, into the offered title lookup, and — when the
classifier returns a row for it — it shields a previously persisted row
keyed by that excluded URL from the reconcile deletion (the save loop's
own exclusion guard only skips the fresh upsert), so the excluded row is
still persisted after the run, refuting the claimed invariant for such
runs. -/
theorem exclusion_invariant_cex :
    isUrlExcluded wHost wRules "http://bad/p" = true ∧
    (pipelineCombined (isUrlExcluded wHost wRules)
        [{ hasId := true, url := "http://ok/p", pendingUrl := "",
           fetch := some { title := "B", url := "http://bad/p", content := "x" } }]
        [] []).map Tab.url = ["http://bad/p"] ∧
    hasKey
      (pipelineTitles (isUrlExcluded wHost wRules)
        [{ hasId := true, url := "http://ok/p", pendingUrl := "",
           fetch := some { title := "B", url := "http://bad/p", content := "x" } }]
        [] []) "http://bad/p" = true ∧
    (match saveAISummaries
        [{ tab_id := some "http://bad/p", session_name := some "S",
           summarized_content := "sum" }]
        (pipelineTitles (isUrlExcluded wHost wRules)
          [{ hasId := true, url := "http://ok/p", pendingUrl := "",
             fetch := some { title := "B", url := "http://bad/p", content := "x" } }]
          [] [])
        (isUrlExcluded wHost wRules)
        { sessions := { nextId := 1, rows := [] },
          tabs := [{ url := "http://bad/p", sessionId := 1, title := "t",
                     summary := "s" }] } with
      | .ok st' => st'.tabs.any (fun m => m.url == "http://bad/p")
      | .error _ => false) = true := by
  refine ⟨by decide, by decide, by decide, by decide⟩

/-- C1 amended: reconciliation at the end of a run is exact over the
classifier result list, but it is computed over ALL persisted rows, not
only over offered identities.  For every run: (i) over offered,
non-excluded identities, a persisted Membership exists after the run if
and only if the identity appears in the classification result list; and
(ii) every Membership with a non-empty URL that survives the run has its
URL in the reconciliation set `urlsFromAI` — so a row whose identity was
never offered is deleted by its absence, contrary to the original claim
(see the counterexample). -/
theorem saveAISummaries_reconciliation (results : List AIResult)
    (titles : List (String × String)) (excl : String → Bool) (st : DBState)
    (hdb : SessPos st.sessions) :
    ∃ st', saveAISummaries results titles excl st = .ok st' ∧
      (∀ u, u ≠ "" → hasKey titles u = true → excl u = false →
        ((∃ m ∈ st'.tabs, m.url = u) ↔ ∃ r ∈ results, r.tab_id = some u)) ∧
      (∀ m ∈ st'.tabs, m.url ≠ "" → m.url ∈ urlsFromAI results titles) := by
  obtain ⟨st', hok, hclosure, hpres⟩ := saveAISummaries_spec results titles excl st hdb
  have hall : ∀ m ∈ st'.tabs, m.url ≠ "" → m.url ∈ urlsFromAI results titles := by
    intro m hm hne
    rcases hclosure m hm with ⟨_, hor⟩ | ⟨hin, _⟩
    · rcases hor with h | h
      · exact absurd h hne
      · exact h
    · exact hin
  refine ⟨st', hok, ?_, hall⟩
  intro u hne hkey hexcl
  constructor
  · rintro ⟨m, hm, hurl⟩
    have := hall m hm (by rw [hurl]; exact hne)
    rw [hurl] at this
    exact (mem_urlsFromAI.mp this).1
  · intro hr
    exact hpres u (mem_urlsFromAI.mpr ⟨hr, hne, hkey⟩) hexcl

/-- C1 amended witness: a concrete run with one offered identity that the
classifier returned. -/
theorem saveAISummaries_reconciliation_witness :
    SessPos ({ nextId := 1, rows := [] } : SessionsStore) ∧
    (∃ st', saveAISummaries
        [{ tab_id := some "http://a", session_name := some "S",
           summarized_content := "sum" }]
        [("http://a", "T")] (fun _ => false)
        { sessions := { nextId := 1, rows := [] }, tabs := [] } = .ok st' ∧
      (∀ u, u ≠ "" → hasKey [("http://a", "T")] u = true → (fun (_ : String) => false) u = false →
        ((∃ m ∈ st'.tabs, m.url = u) ↔
          ∃ r ∈ [{ tab_id := some "http://a", session_name := some "S",
                   summarized_content := "sum" : AIResult }], r.tab_id = some u)) ∧
      (∀ m ∈ st'.tabs, m.url ≠ "" →
        m.url ∈ urlsFromAI
          [{ tab_id := some "http://a", session_name := some "S",
             summarized_content := "sum" }] [("http://a", "T")])) :=
  ⟨by unfold SessPos; decide,
    saveAISummaries_reconciliation
      [{ tab_id := some "http://a", session_name := some "S", summarized_content := "sum" }]
      [("http://a", "T")] (fun _ => false)
      { sessions := { nextId := 1, rows := [] }, tabs := [] }
      (by unfold SessPos; decide)⟩

/-- C1 counterexample: a persisted Membership whose identity was never
offered to the classifier (its URL is not a key of the title lookup) IS
deleted by its absence from the result list: with no classifier results
and an unrelated offered identity, the stored row for `http://old` is
gone after `saveAISummaries`. -/
theorem saveAISummaries_deletes_unoffered :
    hasKey [("http://a", "T")] "http://old" = false ∧
    saveAISummaries [] [("http://a", "T")] (fun _ => false)
      { sessions := { nextId := 1, rows := [] },
        tabs := [{ url := "http://old", sessionId := 1, title := "t", summary := "s" }] } =
      .ok { sessions := { nextId := 1, rows := [] }, tabs := [] } := by
  refine ⟨by decide, by rfl⟩

/-- C10: result rows with a missing, empty or unknown (hallucinated)
`tab_id` are inert.  Such an identity never enters the reconciliation set
(so deletions are never keyed by it), processing the row leaves the
memberships store untouched — its only possible side effect is creating
the named session — and after the whole run every persisted Membership
with a non-empty URL is keyed by a valid offered identity from the result
list. -/
theorem invalid_row_inert (titles : List (String × String)) (excl : String → Bool)
    (ctx : SaveCtx) (r : AIResult) (results : List AIResult) (st : DBState)
    (hdb : SessPos ctx.db) (hdb2 : SessPos st.sessions)
    (hinv : ¬ rowValid titles r) :
    urlsFromAI (r :: results) titles = urlsFromAI results titles ∧
    rowUrl r ∉ urlsFromAI results titles ∧
    (∃ ctx', processResult titles excl ctx r = .ok ctx' ∧ ctx'.tabs = ctx.tabs ∧
      (ctx'.db.rows = ctx.db.rows ∨
        ctx'.db.rows = ctx.db.rows ++
          [(ctx.db.nextId, jsOr r.session_name "Uncategorized")])) ∧
    (∃ st', saveAISummaries results titles excl st = .ok st' ∧
      ∀ m ∈ st'.tabs, m.url ≠ "" → m.url ∈ urlsFromAI results titles) := by
  refine ⟨?_, ?_, ?_, ?_⟩
  · unfold urlsFromAI
    rw [List.filterMap_cons]
    rcases hid : r.tab_id with _ | u
    · rfl
    · have hu : rowUrl r = u := by unfold rowUrl; rw [hid]
      unfold rowValid at hinv
      rw [hu] at hinv
      have hfalse : (u != "" && hasKey titles u) = false := by
        cases h1 : (u != "") with
        | false => simp
        | true =>
          cases h2 : hasKey titles u with
          | false => simp
          | true => exact absurd ⟨by simpa using h1, h2⟩ hinv
      simp [hfalse]
  · intro hmem
    exact hinv ⟨(mem_urlsFromAI.mp hmem).2.1, (mem_urlsFromAI.mp hmem).2.2⟩
  · obtain ⟨ctx', hok, _, hrows, hskip, _⟩ := processResult_spec titles excl ctx r hdb
    exact ⟨ctx', hok, hskip (Or.inl hinv), hrows⟩
  · obtain ⟨st', hok, hclosure, _⟩ := saveAISummaries_spec results titles excl st hdb2
    refine ⟨st', hok, ?_⟩
    intro m hm hne
    rcases hclosure m hm with ⟨_, hor⟩ | ⟨hin, _⟩
    · rcases hor with h | h
      · exact absurd h hne
      · exact h
    · exact hin

/-- C10 witness: a hallucinated row (`http://evil`, not offered) next to a
valid result list, on concrete stores. -/
theorem invalid_row_inert_witness :
    SessPos ({ nextId := 1, rows := [] } : SessionsStore) ∧
    ¬ rowValid [("http://a", "T")]
      { tab_id := some "http://evil", session_name := some "S",
        summarized_content := "x" } ∧
    (urlsFromAI
        ({ tab_id := some "http://evil", session_name := some "S",
           summarized_content := "x" } ::
          [{ tab_id := some "http://a", session_name := some "S",
             summarized_content := "sum" }]) [("http://a", "T")] =
      urlsFromAI
        [{ tab_id := some "http://a", session_name := some "S",
           summarized_content := "sum" }] [("http://a", "T")]) :=
  ⟨by unfold SessPos; decide, by decide,
    (invalid_row_inert [("http://a", "T")] (fun _ => false)
      { db := { nextId := 1, rows := [] }, cache := [], tabs := [] }
      { tab_id := some "http://evil", session_name := some "S",
        summarized_content := "x" }
      [{ tab_id := some "http://a", session_name := some "S",
         summarized_content := "sum" }]
      { sessions := { nextId := 1, rows := [] }, tabs := [] }
      (by unfold SessPos; decide) (by unfold SessPos; decide) (by decide)).1⟩

end Background

namespace FirebaseAi5

theorem callWithRetryGo_calls_le (oracle : Nat → CallOutcome) :
    ∀ (r i : Nat) (acc : List Nat),
      (callWithRetryGo oracle r i acc).calls ≤ i + r + 1 := by
  intro r
  induction r with
  | zero =>
    intro i acc
    unfold callWithRetryGo
    rcases oracle i with resp | ab
    · show i + 1 ≤ i + 0 + 1
      omega
    · show i + 1 ≤ i + 0 + 1
      omega
  | succ r' ih =>
    intro i acc
    unfold callWithRetryGo
    rcases oracle i with resp | ab
    · show i + 1 ≤ i + (r' + 1) + 1
      omega
    · show (if ab then callWithRetryGo oracle r' (i + 1) (acc ++ [1200 * (i + 1)])
          else { result := none, calls := i + 1, backoffs := acc } : RetryResult).calls
        ≤ i + (r' + 1) + 1
      split
      · have := ih (i + 1) (acc ++ [1200 * (i + 1)])
        omega
      · show i + 1 ≤ i + (r' + 1) + 1
        omega

theorem callWithRetryGo_retried_abort (oracle : Nat → CallOutcome) :
    ∀ (r i : Nat) (acc : List Nat) (j : Nat), i ≤ j →
      j + 1 < (callWithRetryGo oracle r i acc).calls → oracle j = .failure true := by
  intro r
  induction r with
  | zero =>
    intro i acc j hij hlt
    unfold callWithRetryGo at hlt
    rcases hor : oracle i with resp | ab <;> rw [hor] at hlt
    · have h2 : j + 1 < i + 1 := hlt
      exact absurd h2 (by omega)
    · have h2 : j + 1 < i + 1 := hlt
      exact absurd h2 (by omega)
  | succ r' ih =>
    intro i acc j hij hlt
    unfold callWithRetryGo at hlt
    rcases hor : oracle i with resp | ab
    · rw [hor] at hlt
      have h2 : j + 1 < i + 1 := hlt
      exact absurd h2 (by omega)
    · rw [hor] at hlt
      have hlt2 : j + 1 <
          (if ab then callWithRetryGo oracle r' (i + 1) (acc ++ [1200 * (i + 1)])
            else { result := none, calls := i + 1, backoffs := acc } : RetryResult).calls :=
        hlt
      by_cases hab : ab
      · rw [if_pos hab] at hlt2
        rcases Nat.lt_or_ge i j with hij' | hij'
        · exact ih (i + 1) (acc ++ [1200 * (i + 1)]) j hij' hlt2
        · have : i = j := Nat.le_antisymm hij hij'
          rw [← this, hor, hab]
      · rw [if_neg hab] at hlt2
        have h2 : j + 1 < i + 1 := hlt2
        exact absurd h2 (by omega)

theorem callWithRetryGo_backoffs_sorted (oracle : Nat → CallOutcome) :
    ∀ (r i : Nat) (acc : List Nat), acc.Pairwise (· < ·) →
      (∀ b ∈ acc, b < 1200 * (i + 1)) →
      (callWithRetryGo oracle r i acc).backoffs.Pairwise (· < ·) := by
  intro r
  induction r with
  | zero =>
    intro i acc hacc _
    unfold callWithRetryGo
    rcases oracle i with resp | ab
    · exact hacc
    · exact hacc
  | succ r' ih =>
    intro i acc hacc hbound
    unfold callWithRetryGo
    rcases oracle i with resp | ab
    · exact hacc
    · show ((if ab then callWithRetryGo oracle r' (i + 1) (acc ++ [1200 * (i + 1)])
          else { result := none, calls := i + 1, backoffs := acc } : RetryResult)).backoffs.Pairwise
        (fun a b => a < b)
      split
      · refine ih (i + 1) (acc ++ [1200 * (i + 1)]) ?_ ?_
        · rw [List.pairwise_append]
          refine ⟨hacc, List.pairwise_singleton _ _, ?_⟩
          intro a ha b hb
          rw [List.mem_singleton] at hb
          rw [hb]
          exact hbound a ha
        · intro b hb
          rcases List.mem_append.mp hb with h | h
          · have := hbound b h
            omega
          · rw [List.mem_singleton] at h
            omega
      · exact hacc

/-- C2: when every transport attempt of the classification call fails
(`callWithRetry` rethrows after its bounded retries), `summarizeTabs`
returns exactly the historical passthrough: every historical input tab
reappears with its stored URL, session name, summary and session id.
Moreover the retry is bounded (at most three transport attempts for
`attempts = 2`), every attempt that was retried had failed abort-like
(non-transient errors are rethrown immediately), and the backoff sleeps
form a strictly increasing sequence. -/
theorem summarizeTabs_transport_failure (e : Encoding) (oracle : Nat → CallOutcome)
    (tabs : List Tab) (maxTokens : Nat)
    (hfail : (callWithRetry oracle 2).result = none) :
    (summarizeTabs e oracle tabs maxTokens).results = historyPassthrough tabs ∧
    (∀ h ∈ tabs, h.source = "history" →
      ∃ r ∈ (summarizeTabs e oracle tabs maxTokens).results,
        r.tab_id = some h.url ∧
        r.session_name = some (jsOr h.sessionName "Uncategorized") ∧
        r.summarized_content = jsOrStr h.content "" ∧
        r.session_id = h.sessionId) ∧
    (callWithRetry oracle 2).calls ≤ 3 ∧
    (∀ j, j + 1 < (callWithRetry oracle 2).calls → oracle j = .failure true) ∧
    (callWithRetry oracle 2).backoffs.Pairwise (· < ·) := by
  have hres : (summarizeTabs e oracle tabs maxTokens).results = historyPassthrough tabs := by
    unfold summarizeTabs
    split
    · rfl
    · rw [hfail]
  refine ⟨hres, ?_, ?_, ?_, ?_⟩
  · intro h hmem hsrc
    refine ⟨passthroughEntry h, ?_, rfl, rfl, rfl, rfl⟩
    rw [hres]
    unfold historyPassthrough
    exact List.mem_map_of_mem _ (List.mem_filter.mpr ⟨hmem, by rw [hsrc]; rfl⟩)
  · exact callWithRetryGo_calls_le oracle 2 0 []
  · intro j hj
    exact callWithRetryGo_retried_abort oracle 2 0 [] j (Nat.zero_le j) hj
  · exact callWithRetryGo_backoffs_sorted oracle 2 0 [] (List.Pairwise.nil) (by intro b hb; cases hb)

/-- C2 witness: with every transport attempt failing abort-like, a single
historical tab survives the run unchanged; three attempts are made and the
backoffs increase. -/
theorem summarizeTabs_transport_failure_witness :
    (callWithRetry (fun _ => .failure true) 2).result = none ∧
    (summarizeTabs zeroEnc (fun _ => .failure true)
        [{ title := "H", url := "http://h", content := "", source := "history",
           sessionId := some 4, sessionName := some "S" }] 50).results =
      historyPassthrough
        [{ title := "H", url := "http://h", content := "", source := "history",
           sessionId := some 4, sessionName := some "S" }] ∧
    (callWithRetry (fun _ => .failure true) 2).calls ≤ 3 ∧
    (callWithRetry (fun _ => .failure true) 2).backoffs.Pairwise (· < ·) := by
  have h := summarizeTabs_transport_failure zeroEnc (fun _ => .failure true)
    [{ title := "H", url := "http://h", content := "", source := "history",
       sessionId := some 4, sessionName := some "S" }] 50 (by decide)
  exact ⟨by decide, h.1, h.2.2.1, h.2.2.2.2⟩

/-- C6 amended: there is no repair round-trip.  When the first transport
attempt succeeds but its response fails the JSON-array parse,
`summarizeTabs` does NOT resend anything: exactly one transport call is
made in total and the historical passthrough is returned immediately. -/
theorem summarizeTabs_parse_failure_no_repair (e : Encoding) (oracle : Nat → CallOutcome)
    (tabs : List Tab) (maxTokens : Nat) (r0 : ModelResponse)
    (hcall : (assemble e maxTokens tabs).tabsInPrompt ≠ 0)
    (hor0 : oracle 0 = .success r0)
    (hna : ∀ items, r0 ≠ ModelResponse.jsonArray items) :
    (summarizeTabs e oracle tabs maxTokens).calls = 1 ∧
    (summarizeTabs e oracle tabs maxTokens).results = historyPassthrough tabs := by
  have hcw : callWithRetry oracle 2 =
      { result := some r0, calls := 1, backoffs := [] } := by
    unfold callWithRetry callWithRetryGo
    rw [hor0]
  unfold summarizeTabs
  rw [if_neg hcall, hcw]
  rcases r0 with items | _ | _
  · exact absurd rfl (hna items)
  · exact ⟨rfl, rfl⟩
  · exact ⟨rfl, rfl⟩

/-- C6 amended witness: a run whose only transport attempt returns
unparseable text; one call is made and the history row is returned. -/
theorem summarizeTabs_parse_failure_no_repair_witness :
    (assemble zeroEnc 50
        [{ title := "H", url := "http://h", content := "", source := "history",
           sessionId := some 4, sessionName := some "S" },
         { title := "T", url := "http://a", content := "", source := "current" }]).tabsInPrompt
      ≠ 0 ∧
    ((summarizeTabs zeroEnc (fun _ => .success .invalidJson)
        [{ title := "H", url := "http://h", content := "", source := "history",
           sessionId := some 4, sessionName := some "S" },
         { title := "T", url := "http://a", content := "", source := "current" }] 50).calls = 1 ∧
      (summarizeTabs zeroEnc (fun _ => .success .invalidJson)
        [{ title := "H", url := "http://h", content := "", source := "history",
           sessionId := some 4, sessionName := some "S" },
         { title := "T", url := "http://a", content := "", source := "current" }] 50).results =
      historyPassthrough
        [{ title := "H", url := "http://h", content := "", source := "history",
           sessionId := some 4, sessionName := some "S" },
         { title := "T", url := "http://a", content := "", source := "current" }]) :=
  ⟨by decide,
    summarizeTabs_parse_failure_no_repair zeroEnc (fun _ => .success .invalidJson)
      [{ title := "H", url := "http://h", content := "", source := "history",
         sessionId := some 4, sessionName := some "S" },
       { title := "T", url := "http://a", content := "", source := "current" }]
      50 .invalidJson (by decide) rfl (by intro items h; cases h)⟩

/-- C6 counterexample: with a response that fails to parse as a JSON
array, the run makes exactly ONE transport call in total — there is no
repair round-trip at all, refuting the claimed exactly-one-repair
behavior (which would require a second call). -/
theorem summarizeTabs_no_repair_cex :
    (assemble zeroEnc 50
        [{ title := "T", url := "http://a", content := "", source := "current" }]).tabsInPrompt
      = 1 ∧
    (summarizeTabs zeroEnc (fun _ => .success .invalidJson)
      [{ title := "T", url := "http://a", content := "", source := "current" }] 50).calls = 1 ∧
    (summarizeTabs zeroEnc (fun _ => .success .invalidJson)
        [{ title := "T", url := "http://a", content := "", source := "current" }] 50).results
      = [] := by
  refine ⟨by decide, by decide, by decide⟩

theorem mem_historyPassthrough {tabs : List Tab} {r : AIResult}
    (hr : r ∈ historyPassthrough tabs) :
    ∃ h ∈ tabs, h.source = "history" ∧ r.tab_id = some h.url := by
  unfold historyPassthrough at hr
  rcases List.mem_map.mp hr with ⟨h, hh, hmap⟩
  have hsrc : h.source = "history" := by
    have := (List.mem_filter.mp hh).2
    exact eq_of_beq this
  exact ⟨h, (List.mem_filter.mp hh).1, hsrc, by rw [← hmap]; rfl⟩

/-- C7: when the budgeter can include zero documents, the classifier is
not invoked (zero transport calls), `summarizeTabs` returns the
historical set as the full result with every historical tab present, and
— when the returned rows are then persisted with a title lookup that
offers every historical URL — `saveAISummaries` raises no error and the
persisted catalog keeps exactly the historical URLs it had. -/
theorem summarizeTabs_zero_docs (e : Encoding) (oracle : Nat → CallOutcome)
    (tabs : List Tab) (maxTokens : Nat)
    (titles : List (String × String)) (excl : String → Bool) (st : Background.DBState)
    (hzero : (assemble e maxTokens tabs).tabsInPrompt = 0)
    (hdb : Background.SessPos st.sessions)
    (htitles : ∀ h ∈ tabs, h.source = "history" →
      h.url ≠ "" ∧ hasKey titles h.url = true ∧ excl h.url = false)
    (hst : ∀ m ∈ st.tabs, ∃ h ∈ tabs, h.source = "history" ∧ m.url = h.url) :
    (summarizeTabs e oracle tabs maxTokens).calls = 0 ∧
    (summarizeTabs e oracle tabs maxTokens).results = historyPassthrough tabs ∧
    (∀ h ∈ tabs, h.source = "history" →
      passthroughEntry h ∈ (summarizeTabs e oracle tabs maxTokens).results) ∧
    (∃ st', Background.saveAISummaries (summarizeTabs e oracle tabs maxTokens).results
        titles excl st = .ok st' ∧
      (∀ m ∈ st.tabs, ∃ m' ∈ st'.tabs, m'.url = m.url) ∧
      (∀ m' ∈ st'.tabs, ∃ h ∈ tabs, h.source = "history" ∧ m'.url = h.url)) := by
  have hres : summarizeTabs e oracle tabs maxTokens =
      { results := historyPassthrough tabs, calls := 0 } := by
    unfold summarizeTabs
    rw [if_pos hzero]
  rw [hres]
  refine ⟨rfl, rfl, ?_, ?_⟩
  · intro h hmem hsrc
    exact List.mem_map_of_mem _ (List.mem_filter.mpr ⟨hmem, by rw [hsrc]; rfl⟩)
  · obtain ⟨st', hok, hclosure, hpres⟩ :=
      Background.saveAISummaries_spec (historyPassthrough tabs) titles excl st hdb
    refine ⟨st', hok, ?_, ?_⟩
    · intro m hm
      obtain ⟨h, hh, hsrc, hurl⟩ := hst m hm
      obtain ⟨hne, hkey, hexcl⟩ := htitles h hh hsrc
      have hmem : h.url ∈ Background.urlsFromAI (historyPassthrough tabs) titles := by
        refine Background.mem_urlsFromAI.mpr ⟨⟨passthroughEntry h, ?_, rfl⟩, hne, hkey⟩
        exact List.mem_map_of_mem _ (List.mem_filter.mpr ⟨hh, by rw [hsrc]; rfl⟩)
      obtain ⟨m', hm', hm'url⟩ := hpres h.url hmem hexcl
      exact ⟨m', hm', by rw [hm'url, hurl]⟩
    · intro m' hm'
      rcases hclosure m' hm' with ⟨hmem, _⟩ | ⟨hin, _⟩
      · exact hst m' hmem
      · obtain ⟨⟨r, hr, hrid⟩, _, _⟩ := Background.mem_urlsFromAI.mp hin
        obtain ⟨h, hh, hsrc, hid⟩ := mem_historyPassthrough hr
        rw [hid] at hrid
        exact ⟨h, hh, hsrc, (Option.some_inj.mp hrid).symm⟩

/-- C7 witness: a run with one historical and no current document;
tabsInPrompt is zero, no call is made, and the one-row catalog keyed by
the historical URL survives persisting the returned rows. -/
theorem summarizeTabs_zero_docs_witness :
    (assemble zeroEnc 50
        [{ title := "H", url := "http://h", content := "", source := "history",
           sessionId := some 1, sessionName := some "S" }]).tabsInPrompt = 0 ∧
    ((summarizeTabs zeroEnc (fun _ => .failure true)
        [{ title := "H", url := "http://h", content := "", source := "history",
           sessionId := some 1, sessionName := some "S" }] 50).calls = 0 ∧
      (summarizeTabs zeroEnc (fun _ => .failure true)
        [{ title := "H", url := "http://h", content := "", source := "history",
           sessionId := some 1, sessionName := some "S" }] 50).results =
        historyPassthrough
          [{ title := "H", url := "http://h", content := "", source := "history",
             sessionId := some 1, sessionName := some "S" }] ∧
      (∀ h ∈ [{ title := "H", url := "http://h", content := "", source := "history",
                sessionId := some 1, sessionName := some "S" : Tab }], h.source = "history" →
        passthroughEntry h ∈ (summarizeTabs zeroEnc (fun _ => .failure true)
          [{ title := "H", url := "http://h", content := "", source := "history",
             sessionId := some 1, sessionName := some "S" }] 50).results) ∧
      (∃ st', Background.saveAISummaries
          (summarizeTabs zeroEnc (fun _ => .failure true)
            [{ title := "H", url := "http://h", content := "", source := "history",
               sessionId := some 1, sessionName := some "S" }] 50).results
          [("http://h", "T")] (fun _ => false)
          { sessions := { nextId := 2, rows := [(1, "S")] },
            tabs := [{ url := "http://h", sessionId := 1, title := "t", summary := "s" }] } =
            .ok st' ∧
        (∀ m ∈ [{ url := "http://h", sessionId := 1, title := "t",
                  summary := "s" : Background.Membership }],
          ∃ m' ∈ st'.tabs, m'.url = m.url) ∧
        (∀ m' ∈ st'.tabs,
          ∃ h ∈ [{ title := "H", url := "http://h", content := "", source := "history",
                   sessionId := some 1, sessionName := some "S" : Tab }],
            h.source = "history" ∧ m'.url = h.url))) :=
  ⟨by decide,
    summarizeTabs_zero_docs zeroEnc (fun _ => .failure true)
      [{ title := "H", url := "http://h", content := "", source := "history",
         sessionId := some 1, sessionName := some "S" }] 50
      [("http://h", "T")] (fun _ => false)
      { sessions := { nextId := 2, rows := [(1, "S")] },
        tabs := [{ url := "http://h", sessionId := 1, title := "t", summary := "s" }] }
      (by decide) (by unfold Background.SessPos; decide) (by decide) (by decide)⟩

end FirebaseAi5

namespace RateLimiter

theorem runAcquires_length (rpm windowMs : Nat) :
    ∀ (arrivals ts : List Nat) (now : Nat) (gs tsf : List Nat),
      runAcquires rpm windowMs arrivals ts now = some (gs, tsf) →
      gs.length = arrivals.length := by
  intro arrivals
  induction arrivals with
  | nil =>
    intro ts now gs tsf h
    unfold runAcquires at h
    cases h
    rfl
  | cons a rest ih =>
    intro ts now gs tsf h
    unfold runAcquires at h
    rcases hacq : acquire rpm windowMs ts (max a now) with _ | p
    · rw [hacq] at h
      cases h
    · rw [hacq] at h
      obtain ⟨ts1, g1⟩ := p
      have h2 : (match runAcquires rpm windowMs rest ts1 g1 with
          | none => none
          | some (gs, tsf) => some (g1 :: gs, tsf)) = some (gs, tsf) := h
      rcases hrun : runAcquires rpm windowMs rest ts1 g1 with _ | q
      · rw [hrun] at h2
        cases h2
      · obtain ⟨gs1, tsf1⟩ := q
        rw [hrun] at h2
        cases h2
        have := ih ts1 g1 _ _ hrun
        simp [this]

/-- C5: for every cap `rpm ≥ 1`, window `windowMs` and arrival sequence,
the serialized sequence of `acquire()` calls all succeed, one grant is
issued per request, no time window of length `windowMs` ever contains
more than `rpm` grants, and no request proceeds without its reservation
timestamp having been recorded: every successful `acquire` returns a
reservation list containing its own grant instant. -/
theorem rateLimiter_window_bound (rpm windowMs : Nat) (hrpm : 1 ≤ rpm)
    (arrivals : List Nat) :
    (∃ gs tsf, runAcquires rpm windowMs arrivals [] 0 = some (gs, tsf) ∧
      gs.length = arrivals.length ∧
      ∀ t, (gs.filter (inWindow windowMs t)).length ≤ rpm) ∧
    (∀ (ts : List Nat) (now : Nat) (ts' : List Nat) (g : Nat), (∀ x ∈ ts, x ≤ now) →
      acquire rpm windowMs ts now = some (ts', g) → g ∈ ts') := by
  constructor
  · obtain ⟨gs, tsf, now', hrun, hinv⟩ :=
      runAcquires_inv rpm windowMs hrpm arrivals [] [] 0
        ⟨(by intro x hx; cases hx), (by simp), (by intro pre m post h; cases pre <;> cases h)⟩
    refine ⟨gs, tsf, by simpa using hrun, runAcquires_length rpm windowMs arrivals [] 0 gs tsf
      (by simpa using hrun), ?_⟩
    have hok : GrantsOK windowMs rpm gs := by
      have := hinv.2.2
      simpa using this
    exact window_of_grantsOK windowMs rpm gs hok
  · intro ts now ts' g hts hacq
    obtain ⟨_, hts', _⟩ := acquireGo_spec rpm windowMs (ts.length + 1) ts now ts' g hacq hts
    rw [hts']
    exact List.mem_append_right _ (List.mem_singleton.mpr rfl)

/-- C5 witness: cap 1, window 2, three simultaneous arrivals — the grants
are spaced so that no window of length 2 holds more than one of them, and
a concrete `acquire` records its grant in the returned reservations. -/
theorem rateLimiter_window_bound_witness :
    1 ≤ 1 ∧
    (∃ gs tsf, runAcquires 1 2 [0, 0, 0] [] 0 = some (gs, tsf) ∧
      gs.length = [0, 0, 0].length ∧
      ∀ t, (gs.filter (inWindow 2 t)).length ≤ 1) ∧
    (∀ x ∈ [3, 1], x ≤ 3) ∧
    (∀ ts', ∀ g, acquire 1 2 [3, 1] 3 = some (ts', g) → g ∈ ts') := by
  have h := rateLimiter_window_bound 1 2 (by decide) [0, 0, 0]
  exact ⟨by decide, h.1, by decide,
    fun ts' g => h.2 [3, 1] 3 ts' g (by decide)⟩

end RateLimiter
